/-
  Verification of the BigBird block-sparse attention engine
  (src/transformers/models/big_bird/modeling_big_bird.py).

  The Python code is shallowly embedded below.  Conventions:
  * numpy integer arrays become `List ℕ` / functions `ℕ → ℕ`;
  * floating point tensors become functions into `ℚ`; the two
    irrational constants of the code, `exp` (inside softmax) and
    `1/sqrt(head_dim)`, are abstracted as parameters `f : ℚ → ℚ` and
    `scale : ℚ` of the embedding, so everything stays computable;
  * the process-global numpy random generator becomes an explicit
    state of an abstract generator `RandGen`, threaded through the
    computation in program order; `np.random.permutation` is the
    generator's `permute` field and `np.random.seed` its `seedFn`;
  * numpy in-place slice assignment, which raises on a length
    mismatch, becomes an `Option`-valued splice (`writeSlice`).
-/
import Mathlib

namespace BigBird

/-- Abstract random generator standing for numpy's global PRNG.
`permute s l` models `np.random.permutation(l)` run at generator
state `s`; `seedFn n` models the state right after `np.random.seed(n)`. -/
structure RandGen where
  State : Type
  seedFn : ℕ → State
  permute : State → List ℕ → List ℕ × State

/-- A generator whose draws leave lists unchanged (identity
permutations) and whose state counts the number of draws. -/
@[reducible] def idGen : RandGen where
  State := ℕ
  seedFn := fun n => n
  permute := fun s l => (l, s + 1)

/-- A generator whose draws reverse lists (reversal is a permutation)
and whose state counts the number of draws. -/
@[reducible] def revGen : RandGen where
  State := ℕ
  seedFn := fun n => n
  permute := fun s l => (l.reverse, s + 1)

/-- `G` only returns rearrangements of its input list. -/
def PermGen (G : RandGen) : Prop :=
  ∀ s l, ((G.permute s l).1).Perm l

/-- `G` only returns elements of its input list (weaker than `PermGen`). -/
def SubsetGen (G : RandGen) : Prop :=
  ∀ s l, ∀ x ∈ (G.permute s l).1, x ∈ l

/-! ### BlockPlanner: `_get_rand_attn_plan` -/

/-- Embedding of `_get_rand_attn_plan(from_seq_length, from_block_size,
num_rand_blocks)`.  Returns `(plan_from_length, plan_num_rand_blocks)`. -/
def getRandAttnPlan (fromSeqLength fromBlockSize numRandBlocks : ℕ) :
    List ℕ × List ℕ :=
  if 2 * numRandBlocks + 5 < fromSeqLength / fromBlockSize then
    ([(2 * numRandBlocks + 5) * fromBlockSize, fromSeqLength],
     [numRandBlocks, 0])
  else if numRandBlocks + 5 < fromSeqLength / fromBlockSize then
    ([(numRandBlocks + 5) * fromBlockSize, fromSeqLength],
     [numRandBlocks / 2, numRandBlocks - numRandBlocks / 2])
  else
    ([fromSeqLength], [numRandBlocks])

/-! ### RandomAdjacencySampler: `_get_single_block_row_attention` -/

/-- The illegal target blocks for query block `blockId` sampling in
`[toStartBlockId, toEndBlockId)`: the window
`[blockId - windowLeft, blockId + windowRight]`, the `globalLeft`
leading blocks, the `globalRight` trailing blocks of the segment, and
the two boundary-symmetry exceptions.  Computed over ℤ because the
Python list may contain negative values. -/
def illegalBlocksFor (blockId toEndBlockId : ℕ)
    (windowLeft windowRight globalLeft globalRight : ℕ) : List ℤ :=
  ((List.range (windowLeft + windowRight + 1)).map
      (fun j : ℕ => (blockId : ℤ) - windowLeft + j)) ++
  ((List.range globalLeft).map (fun j : ℕ => (j : ℤ))) ++
  ((List.range globalRight).map
      (fun j : ℕ => (toEndBlockId : ℤ) - globalRight + j)) ++
  (if blockId = 1 then [(toEndBlockId : ℤ) - 2] else []) ++
  (if (blockId : ℤ) = (toEndBlockId : ℤ) - 2 then [(1 : ℤ)] else [])

/-- The selection loop of `_get_single_block_row_attention`: walk the
permuted block list, keep entries outside `illegal`, and stop as soon
as the selected list's length equals `numRandBlocks` (the length test
runs after each iteration, whether or not an entry was appended). -/
def selectRandomBlocks (illegal : List ℤ) (numRandBlocks : ℕ)
    (selected : List ℕ) : List ℕ → List ℕ
  | [] => selected
  | x :: rest =>
      let selected' := if (x : ℤ) ∈ illegal then selected else selected ++ [x]
      if selected'.length = numRandBlocks then selected'
      else selectRandomBlocks illegal numRandBlocks selected' rest

/-- Embedding of `_get_single_block_row_attention`.  Draws one
permutation of `[toStartBlockId, toEndBlockId)` from the generator and
filters it through the illegal set. -/
def getSingleBlockRowAttention (G : RandGen) (rng : G.State)
    (blockId toStartBlockId toEndBlockId numRandBlocks : ℕ)
    (windowLeft windowRight globalLeft globalRight : ℕ) :
    List ℕ × G.State :=
  let toBlockList := List.range' toStartBlockId (toEndBlockId - toStartBlockId)
  let drawn := G.permute rng toBlockList
  let illegal := illegalBlocksFor blockId toEndBlockId
    windowLeft windowRight globalLeft globalRight
  (selectRandomBlocks illegal numRandBlocks [] drawn.1, drawn.2)

/-- The legal pool at `blockId` for segment `[toStartBlockId, toEndBlockId)`:
the segment's blocks minus the illegal set. -/
def legalPool (blockId toStartBlockId toEndBlockId : ℕ)
    (windowLeft windowRight globalLeft globalRight : ℕ) : List ℕ :=
  (List.range' toStartBlockId (toEndBlockId - toStartBlockId)).filter
    (fun x => decide ((x : ℤ) ∉ illegalBlocksFor blockId toEndBlockId
      windowLeft windowRight globalLeft globalRight))

/-! ### Adjacency orchestration: `_bigbird_block_rand_mask_with_head` -/

/-- `np.sum(l[:k])`. -/
def prefSum (l : List ℕ) (k : ℕ) : ℕ := (l.take k).sum

/-- The mutable state of the adjacency builder: the per-head numpy
array `rand_attn` (as a function from head and block-row to the row's
list of column entries) together with the generator state. -/
structure BuildSt (σ : Type) where
  attn : ℕ → ℕ → List ℕ
  rng : σ

/-- numpy slice assignment `row[a:b] = vals`: fails (as numpy does)
unless `vals` has exactly the length of the slice. -/
def writeSlice (row : List ℕ) (a b : ℕ) (vals : List ℕ) : Option (List ℕ) :=
  if a ≤ b ∧ b ≤ row.length ∧ vals.length = b - a then
    some (row.take a ++ vals ++ row.drop b)
  else none

/-- Pointwise update of the two-index array of rows. -/
def updAttn (attn : ℕ → ℕ → List ℕ) (h i : ℕ) (row : List ℕ) :
    ℕ → ℕ → List ℕ :=
  fun h' i' => if h' = h ∧ i' = i then row else attn h' i'

/-- One statement `rand_attn[h][i, a:b] = _get_single_block_row_attention(...)`:
draw the sample at the current generator state and splice it into the row. -/
def sampleWrite (G : RandGen) (wl wr gl gr : ℕ) (h i a b toStart toEnd num : ℕ)
    (st : BuildSt G.State) : Option (BuildSt G.State) :=
  let res := getSingleBlockRowAttention G st.rng i toStart toEnd num wl wr gl gr
  (writeSlice (st.attn h i) a b res.1).map
    (fun row => ⟨updAttn st.attn h i row, res.2⟩)

/-- One doubly nested loop `for blk_rw_idx in rows: for h in range(numHeads):`
performing `sampleWrite` for each row and head, in program order. -/
def phaseRun (G : RandGen) (wl wr gl gr numHeads : ℕ) (rows : List ℕ)
    (a b toStart toEnd num : ℕ) (st : BuildSt G.State) :
    Option (BuildSt G.State) :=
  rows.foldlM (fun st1 i =>
    (List.range numHeads).foldlM (fun st2 h =>
      sampleWrite G wl wr gl gr h i a b toStart toEnd num st2) st1) st

/-- One iteration of the outer `for plan_idx in range(max_plan_idx+1)` loop
of `_bigbird_block_rand_mask_with_head`.  Its three parts:
(a) when `plan_idx > 0` and the current segment has budget, fill the
current segment's columns for all earlier rows;
(b) when `plan_idx > 0`, for every earlier segment with budget, fill that
segment's columns for the current segment's rows;
(c) when the current segment has budget, fill its columns for its own rows.
`prefSum pnrb planIdx` is `0` when `planIdx = 0`, matching the code's
initialisation `rnd_r_cnt = 0`. -/
def planStep (G : RandGen) (wl wr gt gl gr numHeads : ℕ) (pbl pnrb : List ℕ)
    (planIdx : ℕ) (st : BuildSt G.State) : Option (BuildSt G.State) :=
  (if 0 < planIdx ∧ 0 < pnrb.getD planIdx 0 then
      phaseRun G wl wr gl gr numHeads
        (List.range' gt (pbl.getD (planIdx - 1) 0 - gt))
        (prefSum pnrb planIdx) (prefSum pnrb (planIdx + 1))
        (pbl.getD (planIdx - 1) 0) (pbl.getD planIdx 0)
        (pnrb.getD planIdx 0) st
    else some st).bind (fun stA =>
  ((if 0 < planIdx then
      (List.range planIdx).foldlM (fun st2 plId =>
        if pnrb.getD plId 0 = 0 then pure st2
        else phaseRun G wl wr gl gr numHeads
          (List.range' (pbl.getD (planIdx - 1) 0)
            (pbl.getD planIdx 0 - pbl.getD (planIdx - 1) 0))
          (prefSum pnrb plId) (prefSum pnrb (plId + 1))
          (if 0 < plId then pbl.getD (plId - 1) 0 else 0)
          (pbl.getD plId 0) (pnrb.getD plId 0) st2) stA
    else some stA).bind (fun stB =>
  if pnrb.getD planIdx 0 = 0 then some stB
  else
    phaseRun G wl wr gl gr numHeads
      (List.range' (if 0 < planIdx then pbl.getD (planIdx - 1) 0 else gt)
        (pbl.getD planIdx 0 -
          (if 0 < planIdx then pbl.getD (planIdx - 1) 0 else gt)))
      (prefSum pnrb planIdx) (prefSum pnrb (planIdx + 1))
      (if 0 < planIdx then pbl.getD (planIdx - 1) 0 else 0)
      (pbl.getD planIdx 0) (pnrb.getD planIdx 0) stB)))

/-- Embedding of `_bigbird_block_rand_mask_with_head`.  Builds the
per-head adjacency rows over the given plan, then slices each head's
array to `[global_block_top : num_blocks - global_block_bottom]`. -/
def bigbirdBlockRandMaskWithHead (G : RandGen) (rng : G.State)
    (fromSeqLength fromBlockSize numHeads : ℕ)
    (planFromLength planNumRandBlocks : List ℕ)
    (wl wr gt gb gl gr : ℕ) : Option (List (List (List ℕ)) × G.State) :=
  let numBlocks := fromSeqLength / fromBlockSize
  let pbl := planFromLength.map (· / fromBlockSize)
  let maxPlanIdx := planFromLength.findIdx (· == fromSeqLength)
  let width := prefSum planNumRandBlocks (maxPlanIdx + 1)
  let init : BuildSt G.State := ⟨fun _ _ => List.replicate width 0, rng⟩
  ((List.range (maxPlanIdx + 1)).foldlM
    (fun st planIdx =>
      planStep G wl wr gt gl gr numHeads pbl planNumRandBlocks planIdx st)
    init).map (fun stFin =>
      ((List.range numHeads).map (fun h =>
        (((List.range numBlocks).map (stFin.attn h)).drop gt).take
          (numBlocks - gb - gt)), stFin.rng))

/-! ### Old-paper adjacency: `_bigbird_block_rand_mask` -/

/-- numpy slice `l[a:b]` (clamping, empty when `b ≤ a`). -/
def pySlice (l : List ℕ) (a b : ℕ) : List ℕ := (l.drop a).take (b - a)

/-- One row (query block `i`) of `_bigbird_block_rand_mask`: one
permutation draw on the branch-selected slice of `middle_seq`,
truncated to `r` entries.  `numBlocksTotal` is
`from_seq_length // from_block_size`. -/
def bigbirdBlockRandMaskRow (G : RandGen) (rng : G.State) (middleSeq : List ℕ)
    (numBlocksTotal last r i : ℕ) : List ℕ × G.State :=
  let draw := fun (l : List ℕ) =>
    let d := G.permute rng l
    (d.1.take r, d.2)
  if i = 1 then draw (pySlice middleSeq 2 last)
  else if i = 2 then draw (pySlice middleSeq 3 last)
  else if i = numBlocksTotal - 3 then draw (pySlice middleSeq 0 last)
  else if i = numBlocksTotal - 2 then draw (pySlice middleSeq 0 last)
  else
    if i - 2 > last then draw (pySlice middleSeq 0 last)
    else if i + 1 = last then draw (pySlice middleSeq 0 (i - 2))
    else draw (pySlice middleSeq 0 (i - 2) ++ pySlice middleSeq (i + 1) last)

/-- Embedding of `_bigbird_block_rand_mask(from_seq_length, to_seq_length,
from_block_size, to_block_size, num_rand_blocks, last_idx)`.  Returns the
list of rows for query blocks `1 .. numBlocksTotal - 2`, in order, and
the generator state after all draws. -/
def bigbirdBlockRandMask (G : RandGen) (rng : G.State)
    (fromSeqLength toSeqLength fromBlockSize toBlockSize numRandBlocks : ℕ)
    (lastIdx : ℤ) : List (List ℕ) × G.State :=
  let numBlocksTotal := fromSeqLength / fromBlockSize
  let middleSeq := List.range' 1 (toSeqLength / toBlockSize - 2)
  let last := if lastIdx > 2 * (toBlockSize : ℤ) then
      lastIdx.toNat / toBlockSize - 1
    else toSeqLength / toBlockSize - 1
  (List.range' 1 (numBlocksTotal - 2)).foldl
    (fun (acc : List (List ℕ) × G.State) i =>
      let row := bigbirdBlockRandMaskRow G acc.2 middleSeq numBlocksTotal
        last numRandBlocks i
      (acc.1 ++ [row.1], row.2)) ([], rng)

/-! ### Dispatch: lines 519-541 of `bigbird_block_sparse_attention` -/

/-- Random-adjacency generation as dispatched by
`bigbird_block_sparse_attention`: for `from_seq_length` in
`{1024, 3072, 4096}` every head runs the old-paper routine on
`max_seqlen` blocks with `last_idx=1024` and keeps the first
`seqLen/blockSize - 2` rows; otherwise the plan produced by
`_get_rand_attn_plan` drives `_bigbird_block_rand_mask_with_head`.
The engine calls this with `maxSeqLen = 4096` (`self.max_seqlen`). -/
def generateRandAttn (G : RandGen) (rng : G.State)
    (seqLen blockSize numRandBlocks numHeads maxSeqLen : ℕ) :
    Option (List (List (List ℕ)) × G.State) :=
  if seqLen = 1024 ∨ seqLen = 3072 ∨ seqLen = 4096 then
    some ((List.range numHeads).foldl
      (fun (acc : List (List (List ℕ)) × G.State) _ =>
        let res := bigbirdBlockRandMask G acc.2 maxSeqLen maxSeqLen
          blockSize blockSize numRandBlocks 1024
        (acc.1 ++ [res.1.take (seqLen / blockSize - 2)], res.2)) ([], rng))
  else
    let plan := getRandAttnPlan seqLen blockSize numRandBlocks
    bigbirdBlockRandMaskWithHead G rng seqLen blockSize numHeads
      plan.1 plan.2 1 1 1 1 1 1

/-! ### SparseAttentionCompute: `bigbird_block_sparse_attention`

Tensors are functions into ℚ indexed `(batch, head, position, dim)`;
`f : ℚ → ℚ` abstracts `exp` and `scale : ℚ` abstracts
`1.0 / math.sqrt(attention_head_size)` (both irrational, so kept as
parameters of the embedding).  `wn` is the common query/key block size
(`wm = wn = self.block_size`), `B` the number of blocks, so the
sequence length is `m = n = B * wn`. -/

structure AttnInputs where
  f : ℚ → ℚ
  scale : ℚ
  d : ℕ
  wn : ℕ
  r : ℕ
  B : ℕ
  query : ℕ → ℕ → ℕ → ℕ → ℚ
  key : ℕ → ℕ → ℕ → ℕ → ℚ
  value : ℕ → ℕ → ℕ → ℕ → ℚ
  toMask : ℕ → ℕ → ℚ
  fromMask : ℕ → ℕ → ℚ
  bandMask : ℕ → ℕ → ℕ → ℕ → ℚ
  fromBlockedMask : ℕ → ℕ → ℕ → ℚ
  toBlockedMask : ℕ → ℕ → ℕ → ℚ

/-- Sequence length `n = B * wn`. -/
def AttnInputs.n (P : AttnInputs) : ℕ := P.B * P.wn

/-- `query_layer.view(b, h, m//wm, wm, -1)`. -/
def blockedQuery (P : AttnInputs) (b h i q t : ℕ) : ℚ :=
  P.query b h (i * P.wn + q) t

/-- `key_layer.view(b, h, n//wn, wn, -1)`. -/
def blockedKey (P : AttnInputs) (b h i k t : ℕ) : ℚ :=
  P.key b h (i * P.wn + k) t

/-- `value_layer.view(b, h, n//wn, wn, -1)`. -/
def blockedValue (P : AttnInputs) (b h i k t : ℕ) : ℚ :=
  P.value b h (i * P.wn + k) t

/-- `torch_gather_b2(params, indices)` with `indices` of row width `r`:
the stacked tensor `p2[i2.flatten()]`, of shape
`[b, h, (B-2)*r, wn, d]`; entry `g` of the flattened index list is
`indices[g // r][g % r]`. -/
def torchGatherB2 (params : ℕ → ℕ → ℕ → ℕ → ℕ → ℚ)
    (indices : ℕ → ℕ → ℕ → ℕ → ℕ) (r : ℕ) (b h g row t : ℕ) : ℚ :=
  params b h (indices b h (g / r) (g % r)) row t

/-- `.view(b, h, n//wn - 2, r*wn, -1)` applied to the gather output:
position `(i, j)` reads flat position `i * (r*wn) + j`, split into a
stacked row and an in-block row by `/ wn` and `% wn`. -/
def gatherViewed (wn r : ℕ) (gathered : ℕ → ℕ → ℕ → ℕ → ℕ → ℚ)
    (b h i j t : ℕ) : ℚ :=
  gathered b h ((i * (r * wn) + j) / wn) ((i * (r * wn) + j) % wn) t

/-- `gathered_key = torch_gather_b2(blocked_key_matrix, rand_attn).view(...)`.
`adj h l c` is the batched `rand_attn` (identical across the batch as the
code concatenates one array over the batch dimension). -/
def gatheredKey (P : AttnInputs) (adj : ℕ → ℕ → ℕ → ℕ) (b h i j t : ℕ) : ℚ :=
  gatherViewed P.wn P.r
    (torchGatherB2 (blockedKey P) (fun _ h' l c => adj h' l c) P.r) b h i j t

/-- `gathered_value`, same shape chain as `gatheredKey`. -/
def gatheredValue (P : AttnInputs) (adj : ℕ → ℕ → ℕ → ℕ) (b h i j t : ℕ) : ℚ :=
  gatherViewed P.wn P.r
    (torchGatherB2 (blockedValue P) (fun _ h' l c => adj h' l c) P.r) b h i j t

/-- `_create_rand_mask_from_inputs`: gathering `to_blocked_mask` by the
flattened adjacency and viewing to `[b, h, B-2, r*wn]` sends `(l, k)` to
block `adj h l (k // wn)`, row `k % wn`; the final einsum multiplies in
`from_blocked_mask[:, 1:-1]`. -/
def randMask (P : AttnInputs) (adj : ℕ → ℕ → ℕ → ℕ) (b h l q k : ℕ) : ℚ :=
  P.fromBlockedMask b (l + 1) q * P.toBlockedMask b (adj h l (k / P.wn)) (k % P.wn)

/-- `Σ_t u t * v t` over the head dimension (`einsum "...qd,...kd->...qk"`). -/
def dotD (d : ℕ) (u v : ℕ → ℚ) : ℚ := ∑ t ∈ Finset.range d, u t * v t

/-- Softmax denominator over scores `s 0 .. s (K-1)` with weight map `f`. -/
def softmaxDenom (P : AttnInputs) (K : ℕ) (s : ℕ → ℚ) : ℚ :=
  ∑ k ∈ Finset.range K, P.f (s k)

/-- `F.softmax(s, dim=-1)` at position `j` over a row of length `K`. -/
def softmaxAt (P : AttnInputs) (K : ℕ) (s : ℕ → ℚ) (j : ℕ) : ℚ :=
  P.f (s j) / softmaxDenom P K s

/-- First row-group scores: `q[0] x (k[0], k[1], ...)`, scaled, with the
dense `to_mask` bias. -/
def firstProduct (P : AttnInputs) (b h q k : ℕ) : ℚ :=
  dotD P.d (blockedQuery P b h 0 q) (fun t => P.key b h k t) * P.scale +
    (1 - P.toMask b k) * (-10000)

/-- `first_attn_weights`. -/
def firstAttnWeights (P : AttnInputs) (b h q k : ℕ) : ℚ :=
  softmaxAt P P.n (firstProduct P b h q) k

/-- `first_context_layer`. -/
def firstContextLayer (P : AttnInputs) (b h q t : ℕ) : ℚ :=
  ∑ k ∈ Finset.range P.n, firstAttnWeights P b h q k * P.value b h k t

/-- `second_key_mat`: concatenation of key blocks `0, 1, 2, B-1` and
`gathered_key[:, :, 0]` along the key axis. -/
def secondKeyMat (P : AttnInputs) (adj : ℕ → ℕ → ℕ → ℕ) (b h j t : ℕ) : ℚ :=
  if j < P.wn then blockedKey P b h 0 j t
  else if j < 2 * P.wn then blockedKey P b h 1 (j - P.wn) t
  else if j < 3 * P.wn then blockedKey P b h 2 (j - 2 * P.wn) t
  else if j < 4 * P.wn then blockedKey P b h (P.B - 1) (j - 3 * P.wn) t
  else gatheredKey P adj b h 0 (j - 4 * P.wn) t

/-- `second_value_mat`. -/
def secondValueMat (P : AttnInputs) (adj : ℕ → ℕ → ℕ → ℕ) (b h j t : ℕ) : ℚ :=
  if j < P.wn then blockedValue P b h 0 j t
  else if j < 2 * P.wn then blockedValue P b h 1 (j - P.wn) t
  else if j < 3 * P.wn then blockedValue P b h 2 (j - 2 * P.wn) t
  else if j < 4 * P.wn then blockedValue P b h (P.B - 1) (j - 3 * P.wn) t
  else gatheredValue P adj b h 0 (j - 4 * P.wn) t

/-- `second_seq_pad`: `cat([to_mask[..:3wn], to_mask[..-wn:], ones(r*wn)])`. -/
def secondSeqPad (P : AttnInputs) (b j : ℕ) : ℚ :=
  if j < 3 * P.wn then P.toMask b j
  else if j < 4 * P.wn then P.toMask b (P.n - P.wn + (j - 3 * P.wn))
  else 1

/-- `second_rand_pad`: `cat([ones(4wn), rand_mask[:, :, 0]])`. -/
def secondRandPad (P : AttnInputs) (adj : ℕ → ℕ → ℕ → ℕ) (b h q j : ℕ) : ℚ :=
  if j < 4 * P.wn then 1 else randMask P adj b h 0 q (j - 4 * P.wn)

/-- `second_product`, scaled, with the
`(1 - minimum(second_seq_pad, second_rand_pad)) * -10000` bias added. -/
def secondProduct (P : AttnInputs) (adj : ℕ → ℕ → ℕ → ℕ) (b h q j : ℕ) : ℚ :=
  dotD P.d (blockedQuery P b h 1 q) (fun t => secondKeyMat P adj b h j t) *
      P.scale +
    (1 - min (secondSeqPad P b j) (secondRandPad P adj b h q j)) * (-10000)

/-- `second_attn_weights`: one softmax over the `(4+r)*wn` concatenated row. -/
def secondAttnWeights (P : AttnInputs) (adj : ℕ → ℕ → ℕ → ℕ) (b h q j : ℕ) : ℚ :=
  softmaxAt P ((4 + P.r) * P.wn) (secondProduct P adj b h q) j

/-- `second_context_layer`. -/
def secondContextLayer (P : AttnInputs) (adj : ℕ → ℕ → ℕ → ℕ) (b h q t : ℕ) : ℚ :=
  ∑ j ∈ Finset.range ((4 + P.r) * P.wn),
    secondAttnWeights P adj b h q j * secondValueMat P adj b h j t

/-- `exp_blocked_key_matrix`: `cat([blocked[1:-3], blocked[2:-2],
blocked[3:-1]], dim 3)`; `l` ranges over the `B-4` interior positions. -/
def expBlockedKey (P : AttnInputs) (b h l j t : ℕ) : ℚ :=
  if j < P.wn then blockedKey P b h (l + 1) j t
  else if j < 2 * P.wn then blockedKey P b h (l + 2) (j - P.wn) t
  else blockedKey P b h (l + 3) (j - 2 * P.wn) t

/-- `exp_blocked_value_matrix`. -/
def expBlockedValue (P : AttnInputs) (b h l j t : ℕ) : ℚ :=
  if j < P.wn then blockedValue P b h (l + 1) j t
  else if j < 2 * P.wn then blockedValue P b h (l + 2) (j - P.wn) t
  else blockedValue P b h (l + 3) (j - 2 * P.wn) t

/-- `band_product = cat([first_band, inner_band, rand_band, last_band])`
for interior query block `l + 2`, each part scaled and biased with its
mask (`to_mask[..:wn]`, `band_mask`, `rand_mask[:, :, 1:-1]`,
`to_mask[..-wn:]` respectively). -/
def bandProduct (P : AttnInputs) (adj : ℕ → ℕ → ℕ → ℕ) (b h l q j : ℕ) : ℚ :=
  if j < P.wn then
    dotD P.d (blockedQuery P b h (l + 2) q) (fun t => blockedKey P b h 0 j t) *
        P.scale + (1 - P.toMask b j) * (-10000)
  else if j < 4 * P.wn then
    dotD P.d (blockedQuery P b h (l + 2) q)
        (fun t => expBlockedKey P b h l (j - P.wn) t) * P.scale +
      (1 - P.bandMask b l q (j - P.wn)) * (-10000)
  else if j < (4 + P.r) * P.wn then
    dotD P.d (blockedQuery P b h (l + 2) q)
        (fun t => gatheredKey P adj b h (l + 1) (j - 4 * P.wn) t) * P.scale +
      (1 - randMask P adj b h (l + 1) q (j - 4 * P.wn)) * (-10000)
  else
    dotD P.d (blockedQuery P b h (l + 2) q)
        (fun t => blockedKey P b h (P.B - 1) (j - (4 + P.r) * P.wn) t) *
        P.scale +
      (1 - P.toMask b (P.n - P.wn + (j - (4 + P.r) * P.wn))) * (-10000)

/-- `attn_weights` of the interior case: one softmax over `(5+r)*wn`. -/
def interiorAttnWeights (P : AttnInputs) (adj : ℕ → ℕ → ℕ → ℕ)
    (b h l q j : ℕ) : ℚ :=
  softmaxAt P ((5 + P.r) * P.wn) (bandProduct P adj b h l q) j

/-- Interior `context_layer`: the four einsum contributions (sliding,
random, first global, last global) added in source order. -/
def interiorContextLayer (P : AttnInputs) (adj : ℕ → ℕ → ℕ → ℕ)
    (b h l q t : ℕ) : ℚ :=
  (∑ j ∈ Finset.range (3 * P.wn),
      interiorAttnWeights P adj b h l q (P.wn + j) * expBlockedValue P b h l j t) +
  (∑ j ∈ Finset.range (P.r * P.wn),
      interiorAttnWeights P adj b h l q (4 * P.wn + j) *
        gatheredValue P adj b h (l + 1) j t) +
  (∑ j ∈ Finset.range P.wn,
      interiorAttnWeights P adj b h l q j * blockedValue P b h 0 j t) +
  (∑ j ∈ Finset.range P.wn,
      interiorAttnWeights P adj b h l q ((4 + P.r) * P.wn + j) *
        blockedValue P b h (P.B - 1) j t)

/-- `second_last_key_mat`: key blocks `0, B-3, B-2, B-1` and
`gathered_key[:, :, -1]` (adjacency row of block `B-2`). -/
def secondLastKeyMat (P : AttnInputs) (adj : ℕ → ℕ → ℕ → ℕ) (b h j t : ℕ) : ℚ :=
  if j < P.wn then blockedKey P b h 0 j t
  else if j < 2 * P.wn then blockedKey P b h (P.B - 3) (j - P.wn) t
  else if j < 3 * P.wn then blockedKey P b h (P.B - 2) (j - 2 * P.wn) t
  else if j < 4 * P.wn then blockedKey P b h (P.B - 1) (j - 3 * P.wn) t
  else gatheredKey P adj b h (P.B - 3) (j - 4 * P.wn) t

/-- `second_last_value_mat`. -/
def secondLastValueMat (P : AttnInputs) (adj : ℕ → ℕ → ℕ → ℕ)
    (b h j t : ℕ) : ℚ :=
  if j < P.wn then blockedValue P b h 0 j t
  else if j < 2 * P.wn then blockedValue P b h (P.B - 3) (j - P.wn) t
  else if j < 3 * P.wn then blockedValue P b h (P.B - 2) (j - 2 * P.wn) t
  else if j < 4 * P.wn then blockedValue P b h (P.B - 1) (j - 3 * P.wn) t
  else gatheredValue P adj b h (P.B - 3) (j - 4 * P.wn) t

/-- `second_last_seq_pad`: `cat([to_mask[..:wn], to_mask[..-3wn:], ones])`. -/
def secondLastSeqPad (P : AttnInputs) (b j : ℕ) : ℚ :=
  if j < P.wn then P.toMask b j
  else if j < 4 * P.wn then P.toMask b (P.n - 3 * P.wn + (j - P.wn))
  else 1

/-- `second_last_rand_pad`: `cat([ones(4wn), rand_mask[:, :, -1]])`. -/
def secondLastRandPad (P : AttnInputs) (adj : ℕ → ℕ → ℕ → ℕ)
    (b h q j : ℕ) : ℚ :=
  if j < 4 * P.wn then 1 else randMask P adj b h (P.B - 3) q (j - 4 * P.wn)

/-- `second_last_product`, scaled and biased by the minimum of the two pads. -/
def secondLastProduct (P : AttnInputs) (adj : ℕ → ℕ → ℕ → ℕ)
    (b h q j : ℕ) : ℚ :=
  dotD P.d (blockedQuery P b h (P.B - 2) q)
      (fun t => secondLastKeyMat P adj b h j t) * P.scale +
    (1 - min (secondLastSeqPad P b j) (secondLastRandPad P adj b h q j)) *
      (-10000)

/-- `second_last_attn_weights`. -/
def secondLastAttnWeights (P : AttnInputs) (adj : ℕ → ℕ → ℕ → ℕ)
    (b h q j : ℕ) : ℚ :=
  softmaxAt P ((4 + P.r) * P.wn) (secondLastProduct P adj b h q) j

/-- `second_last_context_layer`. -/
def secondLastContextLayer (P : AttnInputs) (adj : ℕ → ℕ → ℕ → ℕ)
    (b h q t : ℕ) : ℚ :=
  ∑ j ∈ Finset.range ((4 + P.r) * P.wn),
    secondLastAttnWeights P adj b h q j * secondLastValueMat P adj b h j t

/-- Last row-group scores: `q[-1] x (k[0], k[1], ...)`. -/
def lastProduct (P : AttnInputs) (b h q k : ℕ) : ℚ :=
  dotD P.d (blockedQuery P b h (P.B - 1) q) (fun t => P.key b h k t) * P.scale +
    (1 - P.toMask b k) * (-10000)

/-- `last_attn_weights`. -/
def lastAttnWeights (P : AttnInputs) (b h q k : ℕ) : ℚ :=
  softmaxAt P P.n (lastProduct P b h q) k

/-- `last_context_layer`. -/
def lastContextLayer (P : AttnInputs) (b h q t : ℕ) : ℚ :=
  ∑ k ∈ Finset.range P.n, lastAttnWeights P b h q k * P.value b h k t

/-- The concatenated `context_layer`, multiplied by `from_mask` and
transposed to `(batch, position, head, dim)` as the code returns it.
Query rows fall into the five groups by block index. -/
def finalContextLayer (P : AttnInputs) (adj : ℕ → ℕ → ℕ → ℕ)
    (b q h t : ℕ) : ℚ :=
  (if q < P.wn then firstContextLayer P b h q t
   else if q < 2 * P.wn then secondContextLayer P adj b h (q - P.wn) t
   else if q < P.n - 2 * P.wn then
     interiorContextLayer P adj b h ((q - 2 * P.wn) / P.wn)
       ((q - 2 * P.wn) % P.wn) t
   else if q < P.n - P.wn then
     secondLastContextLayer P adj b h (q - (P.n - 2 * P.wn)) t
   else lastContextLayer P b h (q - (P.n - P.wn)) t) * P.fromMask b q

/-- The dense `attention_probs` tensor assembled when
`output_attentions` is set: zeros, then the four region assignments of
the source (first rows dense; second rows at columns `[0, 3wn)` and
`[n-wn, n)`; second-to-last rows at `[0, wn)` and `[n-3wn, n)`; last
rows dense).  The interior-row scatter is commented out in the source,
so those rows stay zero.  The written regions are pairwise disjoint for
`B ≥ 5`, so sequential assignment equals this case split. -/
def attnProbs (P : AttnInputs) (adj : ℕ → ℕ → ℕ → ℕ) (b h row col : ℕ) : ℚ :=
  if row < P.wn then firstAttnWeights P b h row col
  else if row < 2 * P.wn then
    (if col < 3 * P.wn then secondAttnWeights P adj b h (row - P.wn) col
     else if P.n - P.wn ≤ col then
       secondAttnWeights P adj b h (row - P.wn) (3 * P.wn + (col - (P.n - P.wn)))
     else 0)
  else if row < P.n - 2 * P.wn then 0
  else if row < P.n - P.wn then
    (if col < P.wn then
       secondLastAttnWeights P adj b h (row - (P.n - 2 * P.wn)) col
     else if P.n - 3 * P.wn ≤ col then
       secondLastAttnWeights P adj b h (row - (P.n - 2 * P.wn))
         (P.wn + (col - (P.n - 3 * P.wn)))
     else 0)
  else lastAttnWeights P b h (row - (P.n - P.wn)) col

/-- Adjacency rows as an index function (`getD` into the nested lists). -/
def adjOf (rows : List (List (List ℕ))) : ℕ → ℕ → ℕ → ℕ :=
  fun h l c => ((rows.getD h []).getD l []).getD c 0

/-- The full result of one engine invocation. -/
structure SparseOut (σ : Type) where
  adjacency : List (List (List ℕ))
  context : ℕ → ℕ → ℕ → ℕ → ℚ
  probs : ℕ → ℕ → ℕ → ℕ → ℚ
  rngAfter : σ

/-- One invocation of `bigbird_block_sparse_attention`: seed the global
generator (`np.random.seed(seed)` discards the ambient state), build the
random adjacency, and compute the context layer and the dense
attention-probability tensor.  `ambient` is the process-global generator
state on entry; `rngAfter` is the state left behind. -/
def bigbirdBlockSparseAttention (G : RandGen) (seed : ℕ) (P : AttnInputs)
    (numHeads : ℕ) (ambient : G.State) : Option (SparseOut G.State) :=
  let rng0 := G.seedFn seed
  (generateRandAttn G rng0 P.n P.wn P.r numHeads 4096).map
    (fun res =>
      ⟨res.1, finalContextLayer P (adjOf res.1), attnProbs P (adjOf res.1),
        res.2⟩)

/-! ### Spec-side description of the second row-group (claim C4)

These definitions follow the specification's words: the query block `1`
is scored against the concatenation of key blocks `0, 1, 2, B-1` and
its adjacency-selected random key blocks, the additive bias
`(1 - min(sequence-padding mask, random-block mask)) * -10000` is
added, one softmax is applied over the concatenated row, and the
matching value blocks are summed with those weights. -/

/-- The ordered key-block list of query block `1`: window/global blocks
`0, 1, 2, B-1`, then the sampled random blocks of adjacency row `0`. -/
def specSecondBlocks (P : AttnInputs) (adj : ℕ → ℕ → ℕ → ℕ) (h : ℕ) : List ℕ :=
  [0, 1, 2, P.B - 1] ++ (List.range P.r).map (adj h 0)

/-- Key row `j` of the concatenation described by the spec: block
`specSecondBlocks[j / wn]`, in-block row `j % wn`. -/
def specSecondKey (P : AttnInputs) (adj : ℕ → ℕ → ℕ → ℕ) (b h j t : ℕ) : ℚ :=
  blockedKey P b h ((specSecondBlocks P adj h).getD (j / P.wn) 0) (j % P.wn) t

/-- Value row `j` of the concatenation described by the spec. -/
def specSecondValue (P : AttnInputs) (adj : ℕ → ℕ → ℕ → ℕ) (b h j t : ℕ) : ℚ :=
  blockedValue P b h ((specSecondBlocks P adj h).getD (j / P.wn) 0) (j % P.wn) t

/-- The sequence-padding mask of the spec's row: the key token's
`to_mask` bit at its true position for the four window/global blocks,
`1` on the random columns. -/
def specSecondSeqPad (P : AttnInputs) (adj : ℕ → ℕ → ℕ → ℕ) (b h j : ℕ) : ℚ :=
  if j < 4 * P.wn then
    P.toMask b ((specSecondBlocks P adj h).getD (j / P.wn) 0 * P.wn + j % P.wn)
  else 1

/-- The random-block mask of the spec's row: `1` on the window/global
columns, the block-validity product on the random columns. -/
def specSecondRandPad (P : AttnInputs) (adj : ℕ → ℕ → ℕ → ℕ)
    (b h q j : ℕ) : ℚ :=
  if j < 4 * P.wn then 1
  else
    P.fromBlockedMask b 1 q *
      P.toBlockedMask b (adj h 0 ((j - 4 * P.wn) / P.wn)) ((j - 4 * P.wn) % P.wn)

/-- The spec's biased score for query row `q`, column `j`. -/
def specSecondScore (P : AttnInputs) (adj : ℕ → ℕ → ℕ → ℕ)
    (b h q j : ℕ) : ℚ :=
  dotD P.d (blockedQuery P b h 1 q) (fun t => specSecondKey P adj b h j t) *
      P.scale +
    (1 - min (specSecondSeqPad P adj b h j) (specSecondRandPad P adj b h q j)) *
      (-10000)

/-- The spec's second row-group output: one softmax over the
concatenated row, then the weighted sum of the matching value rows. -/
def specSecondContext (P : AttnInputs) (adj : ℕ → ℕ → ℕ → ℕ)
    (b h q t : ℕ) : ℚ :=
  ∑ j ∈ Finset.range ((4 + P.r) * P.wn),
    softmaxAt P ((4 + P.r) * P.wn) (specSecondScore P adj b h q) j *
      specSecondValue P adj b h j t

/-- Claim C2 statement, spec side: the exact plan the planner must
return for a target budget `r` over `B = seqLen / blockSize` blocks. -/
def specPlan (seqLen blockSize r : ℕ) : List ℕ × List ℕ :=
  if 2 * r + 5 < seqLen / blockSize then
    ([(2 * r + 5) * blockSize, seqLen], [r, 0])
  else if r + 5 < seqLen / blockSize then
    ([(r + 5) * blockSize, seqLen], [r / 2, r - r / 2])
  else
    ([seqLen], [r])

/-! ### Invariant vocabulary for the adjacency claims -/

/-- The claim's forbidden targets for interior query block `i` of a
`B`-block sequence: the window `{i-1, i, i+1}` and the global blocks
`{0, B-1}`. -/
def Forbidden (B i x : ℕ) : Prop :=
  x = i - 1 ∨ x = i ∨ x = i + 1 ∨ x = 0 ∨ x = B - 1

instance (B i x : ℕ) : Decidable (Forbidden B i x) := by
  unfold Forbidden
  infer_instance

/-- Proof infrastructure: whatever entry sits at column `c` of `row`
(if any) avoids the forbidden set of block `i`. -/
def CellOk (B i : ℕ) (row : List ℕ) (c : ℕ) : Prop :=
  ∀ x, row[c]? = some x → ¬ Forbidden B i x

/-- Proof infrastructure: every row of the builder's array has width
`width`, and every cell covered by `C` is `CellOk`. -/
def InvC (numHeads width B : ℕ) (C : ℕ → ℕ → Prop)
    (attn : ℕ → ℕ → List ℕ) : Prop :=
  (∀ h i, (attn h i).length = width) ∧
  (∀ h i c, h < numHeads → C i c → CellOk B i (attn h i) c)

/-- Proof infrastructure: the cells written by the first `p` plan steps
of `_bigbird_block_rand_mask_with_head`: column range of some earlier
segment `k` with positive budget, row range `[1, pbl[p-1])`. -/
def CoveredBy (pbl pnrb : List ℕ) (p i c : ℕ) : Prop :=
  ∃ k, k < p ∧ 0 < pnrb.getD k 0 ∧ prefSum pnrb k ≤ c ∧
    c < prefSum pnrb (k + 1) ∧ 1 ≤ i ∧ i < pbl.getD (p - 1) 0

/-! ### Configuration checks (`__init__` line 391, `forward` line 443) -/

/-- The configuration errors the engine can raise before computing. -/
inductive ConfigError where
  | notAbsolute : ConfigError
  | seqLenNotMultiple : ConfigError
deriving DecidableEq

/-- `BigBirdBlockSparseAttention.__init__`: raises unless
`config.position_embedding_type == "absolute"`. -/
def initCheck (posEmbeddingType : String) : Option ConfigError :=
  if posEmbeddingType = "absolute" then none else some ConfigError.notAbsolute

/-- The `forward` asserts: the (query- and key-side) sequence length
must be a multiple of the block size. -/
def forwardLengthCheck (seqLen blockSize : ℕ) : Option ConfigError :=
  if seqLen % blockSize = 0 then none else some ConfigError.seqLenNotMultiple

/-- All configuration checks the engine performs before any attention
computation: the constructor's embedding-type check, then the forward
pass's divisibility assert.  (No check involving the number of blocks
`seqLen / blockSize` appears anywhere in the source.) -/
def engineConfigCheck (seqLen blockSize : ℕ) (posEmbeddingType : String) :
    Option ConfigError :=
  match initCheck posEmbeddingType with
  | some e => some e
  | none => forwardLengthCheck seqLen blockSize

/-! ### Concrete instances used by witnesses and counterexamples -/

/-- A minimal concrete configuration: one batch element, one head,
`d = 1`, `wn = 1`, `r = 1`, `B = 5`, every tensor and mask constantly
`1`, with `f = const 1` and `scale = 1` standing in for the softmax
weight map and `1/sqrt(d)`. -/
def P0 : AttnInputs :=
  ⟨fun _ => 1, 1, 1, 1, 1, 5,
   fun _ _ _ _ => 1, fun _ _ _ _ => 1, fun _ _ _ _ => 1,
   fun _ _ => 1, fun _ _ => 1, fun _ _ _ _ => 1,
   fun _ _ _ => 1, fun _ _ _ => 1⟩

/-- A concrete adjacency function for `P0`: every row selects block 3. -/
def adj0 : ℕ → ℕ → ℕ → ℕ := fun _ _ _ => 3

/-- Like `P0` but with `B = 6` blocks, the smallest block count whose
plan-path sampling succeeds with `r = 1`. -/
def P1 : AttnInputs :=
  ⟨fun _ => 1, 1, 1, 1, 1, 6,
   fun _ _ _ _ => 1, fun _ _ _ _ => 1, fun _ _ _ _ => 1,
   fun _ _ => 1, fun _ _ => 1, fun _ _ _ _ => 1,
   fun _ _ _ => 1, fun _ _ _ => 1⟩

/-- A generator that rearranges the pool `[0, 8)` into
`[4, 5, 6, 7, 0, 1, 2, 3]` (a genuine permutation) and leaves every
other list unchanged. -/
@[reducible] def permGenEx : RandGen where
  State := ℕ
  seedFn := fun n => n
  permute := fun s l =>
    (if l = List.range' 0 8 then [4, 5, 6, 7, 0, 1, 2, 3] else l, s + 1)

/-- Concrete blocked tensor for the gather witness: entry is
`block * 100 + row`. -/
def gatherParamsEx : ℕ → ℕ → ℕ → ℕ → ℕ → ℚ :=
  fun _ _ blk row _ => ((blk * 100 + row : ℕ) : ℚ)

/-- Concrete adjacency for the gather witness: `adj[l][c] = 10*l + c`. -/
def gatherIndicesEx : ℕ → ℕ → ℕ → ℕ → ℕ := fun _ _ l c => 10 * l + c

/-! ## Theorems -/

theorem PermGen.subsetGen {G : RandGen} (h : PermGen G) : SubsetGen G :=
  fun s l x hx => (h s l).mem_iff.mp hx

theorem idGen_perm : PermGen idGen := fun _ _ => List.Perm.refl _

theorem revGen_perm : PermGen revGen := fun _ l => List.reverse_perm l

/-- **C2.** For every valid configuration the planner returns exactly
the staged two-segment plan when `2r+5 < B`, the halved two-segment
plan when `r+5 < B ≤ 2r+5`, and the single full-budget segment
otherwise. -/
theorem claim2_plan_correct (seqLen blockSize r : ℕ)
    (hbs : 0 < blockSize) (hdvd : blockSize ∣ seqLen) :
    getRandAttnPlan seqLen blockSize r = specPlan seqLen blockSize r := by
  rfl

/-- Witness for C2 at `seqLen = 512`, `blockSize = 64`, `r = 1`
(so `B = 8` and `2r+5 = 7 < 8`). -/
theorem claim2_witness :
    0 < 64 ∧ (64 : ℕ) ∣ 512 ∧
      getRandAttnPlan 512 64 1 = specPlan 512 64 1 ∧
      getRandAttnPlan 512 64 1 = ([448, 512], [1, 0]) :=
  ⟨by decide, by decide, claim2_plan_correct 512 64 1 (by decide) (by decide),
    by decide⟩

/-! ### Index arithmetic and the gather contract -/

lemma nat_div_between {wn j c : ℕ} (h1 : c * wn ≤ j) (h2 : j < (c + 1) * wn) :
    j / wn = c :=
  Nat.div_eq_of_lt_le h1 h2

lemma nat_mod_between {wn j c : ℕ} (h1 : c * wn ≤ j) (h2 : j < (c + 1) * wn) :
    j % wn = j - c * wn := by
  have hd : j / wn = c := Nat.div_eq_of_lt_le h1 h2
  have hm := Nat.mod_add_div j wn
  rw [hd] at hm
  rw [mul_comm c wn]
  omega

/-- Pointwise contract of the stack-index-view chain of
`torch_gather_b2` followed by `.view(b, h, B-2, r*wn, -1)`. -/
lemma gather_pointwise (params : ℕ → ℕ → ℕ → ℕ → ℕ → ℚ)
    (indices : ℕ → ℕ → ℕ → ℕ → ℕ) (r wn b h i j t : ℕ)
    (hwn : 0 < wn) (hr : 0 < r) (hj : j < r * wn) :
    gatherViewed wn r (torchGatherB2 params indices r) b h i j t =
      params b h (indices b h i (j / wn)) (j % wn) t := by
  unfold gatherViewed torchGatherB2
  have h1 : i * (r * wn) + j = wn * (i * r) + j := by ring
  rw [h1, Nat.mul_add_div hwn, Nat.mul_add_mod]
  have h2 : j / wn < r := by
    rw [Nat.div_lt_iff_lt_mul hwn]; exact hj
  have h3 : i * r + j / wn = j / wn + r * i := by ring
  rw [h3, Nat.add_mul_div_left _ _ hr, Nat.add_mul_mod_self_left,
    Nat.div_eq_of_lt h2, Nat.mod_eq_of_lt h2, Nat.zero_add]

lemma gatheredKey_eq (P : AttnInputs) (adj : ℕ → ℕ → ℕ → ℕ) (b h i j t : ℕ)
    (hwn : 0 < P.wn) (hr : 0 < P.r) (hj : j < P.r * P.wn) :
    gatheredKey P adj b h i j t =
      blockedKey P b h (adj h i (j / P.wn)) (j % P.wn) t :=
  gather_pointwise (blockedKey P) (fun _ h' l c => adj h' l c) P.r P.wn
    b h i j t hwn hr hj

lemma gatheredValue_eq (P : AttnInputs) (adj : ℕ → ℕ → ℕ → ℕ) (b h i j t : ℕ)
    (hwn : 0 < P.wn) (hr : 0 < P.r) (hj : j < P.r * P.wn) :
    gatheredValue P adj b h i j t =
      blockedValue P b h (adj h i (j / P.wn)) (j % P.wn) t :=
  gather_pointwise (blockedValue P) (fun _ h' l c => adj h' l c) P.r P.wn
    b h i j t hwn hr hj

/-! ### Claim C4: the second row-group matches the spec's description -/

lemma specSecondBlocks_getD_rand (P : AttnInputs) (adj : ℕ → ℕ → ℕ → ℕ)
    (h m : ℕ) (hm : m < P.r) :
    (specSecondBlocks P adj h).getD (4 + m) 0 = adj h 0 m := by
  unfold specSecondBlocks
  rw [List.getD_append_right]
  · rw [show 4 + m - ([0, 1, 2, P.B - 1] : List ℕ).length = m from by norm_num]
    rw [List.getD_eq_getElem ((List.range P.r).map (adj h 0)) 0 (by simpa using hm)]
    simp
  · norm_num

lemma second_rand_bound (P : AttnInputs) {j : ℕ} (h3 : 4 * P.wn ≤ j)
    (hj : j < (4 + P.r) * P.wn) : j - 4 * P.wn < P.r * P.wn := by
  have he : (4 + P.r) * P.wn = 4 * P.wn + P.r * P.wn := by ring
  rw [he] at hj
  omega

lemma second_r_pos (P : AttnInputs) {j : ℕ} (h3 : 4 * P.wn ≤ j)
    (hj : j < (4 + P.r) * P.wn) : 0 < P.r := by
  rcases Nat.eq_zero_or_pos P.r with hr0 | hr
  · rw [hr0] at hj
    norm_num at hj
    omega
  · exact hr

lemma second_div4 (P : AttnInputs) {j : ℕ} (hwn : 0 < P.wn)
    (h3 : 4 * P.wn ≤ j) :
    j / P.wn = 4 + (j - 4 * P.wn) / P.wn ∧ j % P.wn = (j - 4 * P.wn) % P.wn := by
  have hj4 : j = P.wn * 4 + (j - 4 * P.wn) := by omega
  constructor
  · conv_lhs => rw [hj4]
    rw [Nat.mul_add_div hwn]
  · conv_lhs => rw [hj4]
    rw [Nat.mul_add_mod]

lemma specSecondKey_eq (P : AttnInputs) (adj : ℕ → ℕ → ℕ → ℕ) (b h j t : ℕ)
    (hwn : 0 < P.wn) (hj : j < (4 + P.r) * P.wn) :
    specSecondKey P adj b h j t = secondKeyMat P adj b h j t := by
  unfold specSecondKey secondKeyMat
  rcases lt_or_ge j P.wn with h0 | h0
  · rw [if_pos h0, Nat.div_eq_of_lt h0, Nat.mod_eq_of_lt h0]
    simp [specSecondBlocks, List.getD]
  rw [if_neg (not_lt.mpr h0)]
  rcases lt_or_ge j (2 * P.wn) with h1 | h1
  · rw [if_pos h1,
      nat_div_between (c := 1) (by omega) (by omega),
      nat_mod_between (c := 1) (by omega) (by omega)]
    simp only [specSecondBlocks, List.getD]
    norm_num
  rw [if_neg (not_lt.mpr h1)]
  rcases lt_or_ge j (3 * P.wn) with h2 | h2
  · rw [if_pos h2,
      nat_div_between (c := 2) (by omega) (by omega),
      nat_mod_between (c := 2) (by omega) (by omega)]
    simp only [specSecondBlocks, List.getD]
    norm_num
  rw [if_neg (not_lt.mpr h2)]
  rcases lt_or_ge j (4 * P.wn) with h3 | h3
  · rw [if_pos h3,
      nat_div_between (c := 3) (by omega) (by omega),
      nat_mod_between (c := 3) (by omega) (by omega)]
    simp only [specSecondBlocks, List.getD]
    norm_num
  rw [if_neg (not_lt.mpr h3)]
  have hr : 0 < P.r := second_r_pos P h3 hj
  have hb : j - 4 * P.wn < P.r * P.wn := second_rand_bound P h3 hj
  obtain ⟨hdiv, hmod⟩ := second_div4 P hwn h3
  rw [hdiv, hmod, specSecondBlocks_getD_rand P adj h _
      (by rw [Nat.div_lt_iff_lt_mul hwn]; exact hb),
    gatheredKey_eq P adj b h 0 (j - 4 * P.wn) t hwn hr hb]

lemma specSecondValue_eq (P : AttnInputs) (adj : ℕ → ℕ → ℕ → ℕ) (b h j t : ℕ)
    (hwn : 0 < P.wn) (hj : j < (4 + P.r) * P.wn) :
    specSecondValue P adj b h j t = secondValueMat P adj b h j t := by
  unfold specSecondValue secondValueMat
  rcases lt_or_ge j P.wn with h0 | h0
  · rw [if_pos h0, Nat.div_eq_of_lt h0, Nat.mod_eq_of_lt h0]
    simp [specSecondBlocks, List.getD]
  rw [if_neg (not_lt.mpr h0)]
  rcases lt_or_ge j (2 * P.wn) with h1 | h1
  · rw [if_pos h1,
      nat_div_between (c := 1) (by omega) (by omega),
      nat_mod_between (c := 1) (by omega) (by omega)]
    simp only [specSecondBlocks, List.getD]
    norm_num
  rw [if_neg (not_lt.mpr h1)]
  rcases lt_or_ge j (3 * P.wn) with h2 | h2
  · rw [if_pos h2,
      nat_div_between (c := 2) (by omega) (by omega),
      nat_mod_between (c := 2) (by omega) (by omega)]
    simp only [specSecondBlocks, List.getD]
    norm_num
  rw [if_neg (not_lt.mpr h2)]
  rcases lt_or_ge j (4 * P.wn) with h3 | h3
  · rw [if_pos h3,
      nat_div_between (c := 3) (by omega) (by omega),
      nat_mod_between (c := 3) (by omega) (by omega)]
    simp only [specSecondBlocks, List.getD]
    norm_num
  rw [if_neg (not_lt.mpr h3)]
  have hr : 0 < P.r := second_r_pos P h3 hj
  have hb : j - 4 * P.wn < P.r * P.wn := second_rand_bound P h3 hj
  obtain ⟨hdiv, hmod⟩ := second_div4 P hwn h3
  rw [hdiv, hmod, specSecondBlocks_getD_rand P adj h _
      (by rw [Nat.div_lt_iff_lt_mul hwn]; exact hb),
    gatheredValue_eq P adj b h 0 (j - 4 * P.wn) t hwn hr hb]

lemma specSecondSeqPad_eq (P : AttnInputs) (adj : ℕ → ℕ → ℕ → ℕ) (b h j : ℕ)
    (hwn : 0 < P.wn) (hj : j < (4 + P.r) * P.wn) :
    specSecondSeqPad P adj b h j = secondSeqPad P b j := by
  unfold specSecondSeqPad secondSeqPad
  rcases lt_or_ge j P.wn with h0 | h0
  · rw [if_pos (show j < 4 * P.wn from by omega), if_pos (show j < 3 * P.wn from by omega),
      Nat.div_eq_of_lt h0, Nat.mod_eq_of_lt h0]
    simp [specSecondBlocks, List.getD]
  rcases lt_or_ge j (2 * P.wn) with h1 | h1
  · rw [if_pos (show j < 4 * P.wn from by omega), if_pos (show j < 3 * P.wn from by omega),
      nat_div_between (c := 1) (by omega) (by omega),
      nat_mod_between (c := 1) (by omega) (by omega)]
    simp only [specSecondBlocks, List.getD]
    norm_num
    congr 1
    omega
  rcases lt_or_ge j (3 * P.wn) with h2 | h2
  · rw [if_pos (show j < 4 * P.wn from by omega), if_pos h2,
      nat_div_between (c := 2) (by omega) (by omega),
      nat_mod_between (c := 2) (by omega) (by omega)]
    simp only [specSecondBlocks, List.getD]
    norm_num
    congr 1
    omega
  rcases lt_or_ge j (4 * P.wn) with h3 | h3
  · rw [if_pos h3, if_neg (not_lt.mpr h2),
      nat_div_between (c := 3) (by omega) (by omega),
      nat_mod_between (c := 3) (by omega) (by omega)]
    rw [if_pos h3]
    simp only [specSecondBlocks, List.getD]
    norm_num
    congr 1
    have : P.n = P.B * P.wn := rfl
    have hsub : (P.B - 1) * P.wn = P.B * P.wn - P.wn := by
      rw [Nat.sub_mul, one_mul]
    omega
  · rw [if_neg (not_lt.mpr h3), if_neg (not_lt.mpr (show 3 * P.wn ≤ j from by omega)),
      if_neg (not_lt.mpr h3)]

lemma specSecondRandPad_eq (P : AttnInputs) (adj : ℕ → ℕ → ℕ → ℕ)
    (b h q j : ℕ) :
    specSecondRandPad P adj b h q j = secondRandPad P adj b h q j := by
  unfold specSecondRandPad secondRandPad randMask
  norm_num

lemma specSecondScore_eq (P : AttnInputs) (adj : ℕ → ℕ → ℕ → ℕ) (b h q j : ℕ)
    (hwn : 0 < P.wn) (hj : j < (4 + P.r) * P.wn) :
    specSecondScore P adj b h q j = secondProduct P adj b h q j := by
  unfold specSecondScore secondProduct
  rw [specSecondSeqPad_eq P adj b h j hwn hj, specSecondRandPad_eq P adj b h q j]
  have hk : dotD P.d (blockedQuery P b h 1 q)
      (fun t => specSecondKey P adj b h j t) =
      dotD P.d (blockedQuery P b h 1 q)
        (fun t => secondKeyMat P adj b h j t) := by
    unfold dotD
    refine Finset.sum_congr rfl (fun t _ => ?_)
    show blockedQuery P b h 1 q t * specSecondKey P adj b h j t =
      blockedQuery P b h 1 q t * secondKeyMat P adj b h j t
    rw [specSecondKey_eq P adj b h j t hwn hj]
  rw [hk]

/-- **C4.** For every configuration with a positive block size, the
second row-group output (`second_context_layer`) is exactly the spec's
description: score query block 1 against the concatenation of key
blocks `0, 1, 2, B-1` and the gathered random blocks, add the bias
`(1 - min(seq-pad, rand-pad)) * -10000`, apply one softmax over the
concatenated row, and take the weighted sum of the matching value
rows. -/
theorem claim4_second_row_spec (P : AttnInputs) (adj : ℕ → ℕ → ℕ → ℕ)
    (b h q t : ℕ) (hwn : 0 < P.wn) (hB : 5 ≤ P.B) :
    secondContextLayer P adj b h q t = specSecondContext P adj b h q t := by
  unfold secondContextLayer specSecondContext
  refine Finset.sum_congr rfl (fun j hj => ?_)
  rw [Finset.mem_range] at hj
  have hden : softmaxDenom P ((4 + P.r) * P.wn) (specSecondScore P adj b h q) =
      softmaxDenom P ((4 + P.r) * P.wn) (secondProduct P adj b h q) := by
    unfold softmaxDenom
    exact Finset.sum_congr rfl (fun k hk => by
      rw [specSecondScore_eq P adj b h q k hwn (Finset.mem_range.mp hk)])
  unfold secondAttnWeights softmaxAt
  rw [hden, specSecondScore_eq P adj b h q j hwn hj,
    specSecondValue_eq P adj b h j t hwn hj]

/-- Witness for C4 at the concrete configuration `P0`/`adj0`. -/
theorem claim4_witness :
    0 < P0.wn ∧ 5 ≤ P0.B ∧
      secondContextLayer P0 adj0 0 0 0 0 = specSecondContext P0 adj0 0 0 0 0 :=
  ⟨by decide, by decide,
    claim4_second_row_spec P0 adj0 0 0 0 0 (by decide) (by decide)⟩

/-- **C5.** The gathered key (and value) tensor preserves adjacency
order: for `j < r * wn`, position `(b, h, i, j)` of the view of the
`torch_gather_b2` output reads block `indices[b][h][i][j / wn]`, row
`j % wn`, of the blocked input. -/
theorem claim5_gather_correct (params : ℕ → ℕ → ℕ → ℕ → ℕ → ℚ)
    (indices : ℕ → ℕ → ℕ → ℕ → ℕ) (r wn b h i j t : ℕ)
    (hwn : 0 < wn) (hr : 0 < r) (hj : j < r * wn) :
    gatherViewed wn r (torchGatherB2 params indices r) b h i j t =
      params b h (indices b h i (j / wn)) (j % wn) t :=
  gather_pointwise params indices r wn b h i j t hwn hr hj

/-- Witness for C5 at `wn = 3`, `r = 2`, `i = 5`, `j = 4`
(`j / wn = 1`, `j % wn = 1`, selected block `10*5+1 = 51`). -/
theorem claim5_witness :
    0 < 3 ∧ 0 < 2 ∧ 4 < 2 * 3 ∧
      gatherViewed 3 2 (torchGatherB2 gatherParamsEx gatherIndicesEx 2) 0 0 5 4 0 =
        gatherParamsEx 0 0 (gatherIndicesEx 0 0 5 (4 / 3)) (4 % 3) 0 :=
  ⟨by decide, by decide, by decide,
    claim5_gather_correct gatherParamsEx gatherIndicesEx 2 3 0 0 5 4 0
      (by decide) (by decide) (by decide)⟩

/-! ### Claim C3: the single-row sampling operation -/

/-- Every entry of the selection loop's output is either from the
accumulator or a non-illegal element of the scanned list. -/
lemma selectRandomBlocks_sub (illegal : List ℤ) (num : ℕ) :
    ∀ (l acc : List ℕ), ∀ x ∈ selectRandomBlocks illegal num acc l,
      x ∈ acc ∨ (x ∈ l ∧ (x : ℤ) ∉ illegal) := by
  intro l
  induction l with
  | nil => intro acc x hx; exact Or.inl hx
  | cons y rest ih =>
      intro acc x hx
      unfold selectRandomBlocks at hx
      by_cases hy : (y : ℤ) ∈ illegal
      · rw [if_pos hy] at hx
        by_cases hl : acc.length = num
        · rw [if_pos hl] at hx
          exact Or.inl hx
        · rw [if_neg hl] at hx
          rcases ih acc x hx with h | ⟨h1, h2⟩
          · exact Or.inl h
          · exact Or.inr ⟨List.mem_cons_of_mem y h1, h2⟩
      · rw [if_neg hy] at hx
        by_cases hl : (acc ++ [y]).length = num
        · rw [if_pos hl] at hx
          rcases List.mem_append.mp hx with h | h
          · exact Or.inl h
          · rw [List.mem_singleton] at h
            exact Or.inr ⟨h ▸ List.mem_cons_self y rest, h ▸ hy⟩
        · rw [if_neg hl] at hx
          rcases ih (acc ++ [y]) x hx with h | ⟨h1, h2⟩
          · rcases List.mem_append.mp h with h' | h'
            · exact Or.inl h'
            · rw [List.mem_singleton] at h'
              exact Or.inr ⟨h' ▸ List.mem_cons_self y rest, h' ▸ hy⟩
          · exact Or.inr ⟨List.mem_cons_of_mem y h1, h2⟩

/-- The selection loop preserves freedom from duplicates. -/
lemma selectRandomBlocks_nodup (illegal : List ℤ) (num : ℕ) :
    ∀ (l acc : List ℕ), (acc ++ l).Nodup →
      (selectRandomBlocks illegal num acc l).Nodup := by
  intro l
  induction l with
  | nil => intro acc h; simpa using h
  | cons y rest ih =>
      intro acc h
      have hassoc : acc ++ y :: rest = (acc ++ [y]) ++ rest := by simp
      unfold selectRandomBlocks
      by_cases hy : (y : ℤ) ∈ illegal
      · rw [if_pos hy]
        have hacc : (acc ++ rest).Nodup := by
          refine List.Nodup.sublist ?_ h
          exact (List.sublist_cons_self y rest).append_left acc
        by_cases hl : acc.length = num
        · rw [if_pos hl]
          exact (List.nodup_append.mp hacc).1
        · rw [if_neg hl]
          exact ih acc hacc
      · rw [if_neg hy]
        rw [hassoc] at h
        by_cases hl : (acc ++ [y]).length = num
        · rw [if_pos hl]
          exact (List.nodup_append.mp h).1
        · rw [if_neg hl]
          exact ih (acc ++ [y]) h

/-- Exact length of the selection loop's output when the accumulator is
still below the budget: the minimum of the budget and of accumulator
plus remaining legal entries. -/
lemma selectRandomBlocks_len (illegal : List ℤ) (num : ℕ) :
    ∀ (l acc : List ℕ), acc.length < num →
      (selectRandomBlocks illegal num acc l).length =
        min num (acc.length +
          (l.filter (fun x : ℕ => decide ((x : ℤ) ∉ illegal))).length) := by
  intro l
  induction l with
  | nil =>
      intro acc h
      simp only [selectRandomBlocks, List.filter_nil, List.length_nil,
        Nat.add_zero]
      omega
  | cons y rest ih =>
      intro acc h
      unfold selectRandomBlocks
      by_cases hy : (y : ℤ) ∈ illegal
      · rw [if_pos hy, if_neg (by omega)]
        rw [ih acc h]
        have hf : (y :: rest).filter (fun x : ℕ => decide ((x : ℤ) ∉ illegal)) =
            rest.filter (fun x : ℕ => decide ((x : ℤ) ∉ illegal)) := by
          rw [List.filter_cons_of_neg]
          simpa using hy
        rw [hf]
      · rw [if_neg hy]
        have hf : (y :: rest).filter (fun x : ℕ => decide ((x : ℤ) ∉ illegal)) =
            y :: rest.filter (fun x : ℕ => decide ((x : ℤ) ∉ illegal)) := by
          rw [List.filter_cons_of_pos]
          simpa using hy
        rw [hf]
        by_cases hl : (acc ++ [y]).length = num
        · rw [if_pos hl]
          simp only [List.length_append, List.length_singleton, List.length_nil] at hl ⊢
          simp only [List.length_cons]
          omega
        · rw [if_neg hl]
          rw [ih (acc ++ [y]) (by simp at hl ⊢; omega)]
          simp only [List.length_append, List.length_singleton, List.length_cons,
            List.length_nil]
          omega

/-- **C3 (amended).** With a positive budget, the single-row sampling
operation run on a genuine permutation generator returns pairwise
distinct entries of the legal pool, at most `num` of them, and exactly
`num` whenever the legal pool holds at least `num` blocks.  (The
positivity hypothesis is needed: with `num = 0` the loop's stop test
misfires, see the counterexample.) -/
theorem claim3_amended (G : RandGen) (hG : PermGen G) (rng : G.State)
    (blockId toStart toEnd num wl wr gl gr : ℕ) (hnum : 0 < num) :
    (getSingleBlockRowAttention G rng blockId toStart toEnd num
        wl wr gl gr).1.Nodup ∧
    (getSingleBlockRowAttention G rng blockId toStart toEnd num
        wl wr gl gr).1.length ≤ num ∧
    (∀ x ∈ (getSingleBlockRowAttention G rng blockId toStart toEnd num
        wl wr gl gr).1, x ∈ legalPool blockId toStart toEnd wl wr gl gr) ∧
    (num ≤ (legalPool blockId toStart toEnd wl wr gl gr).length →
      (getSingleBlockRowAttention G rng blockId toStart toEnd num
        wl wr gl gr).1.length = num) := by
  unfold getSingleBlockRowAttention legalPool
  have hp : ((G.permute rng (List.range' toStart (toEnd - toStart))).1).Perm
      (List.range' toStart (toEnd - toStart)) := hG rng _
  have hpnd : ((G.permute rng (List.range' toStart (toEnd - toStart))).1).Nodup :=
    hp.nodup_iff.mpr (List.nodup_range' _ _)
  have hlen := selectRandomBlocks_len
    (illegalBlocksFor blockId toEnd wl wr gl gr) num
    (G.permute rng (List.range' toStart (toEnd - toStart))).1 []
    (by simpa using hnum)
  have hflen : (((G.permute rng (List.range' toStart (toEnd - toStart))).1).filter
      (fun x : ℕ => decide ((x : ℤ) ∉ illegalBlocksFor blockId toEnd wl wr gl gr))).length =
      ((List.range' toStart (toEnd - toStart)).filter
        (fun x : ℕ => decide ((x : ℤ) ∉ illegalBlocksFor blockId toEnd wl wr gl gr))).length :=
    (hp.filter _).length_eq
  refine ⟨?_, ?_, ?_, ?_⟩
  · exact selectRandomBlocks_nodup _ num _ [] (by simpa using hpnd)
  · rw [hlen]
    omega
  · intro x hx
    rcases selectRandomBlocks_sub _ num _ [] x hx with h | ⟨h1, h2⟩
    · simp at h
    · exact List.mem_filter.mpr ⟨hp.mem_iff.mp h1, by simpa using h2⟩
  · intro hle
    rw [hlen]
    rw [hflen] at hlen ⊢
    omega

/-- **C3 (counterexample).** With `num_rand_blocks = 0` the claim's
bound `|result| ≤ num_rand_blocks` fails: for query block `2` over the
segment `[0, 8)` and a generator whose (genuine) permutation of the
pool starts with a legal block, the loop's stop test — executed only
after an append — never fires, and the whole legal pool `[4, 5, 6]` is
returned. -/
theorem claim3_counterexample :
    ((permGenEx.permute (permGenEx.seedFn 0) (List.range' 0 8)).1).Perm
        (List.range' 0 8) ∧
    (getSingleBlockRowAttention permGenEx (permGenEx.seedFn 0)
        2 0 8 0 1 1 1 1).1 = [4, 5, 6] ∧
    ¬ ((getSingleBlockRowAttention permGenEx (permGenEx.seedFn 0)
        2 0 8 0 1 1 1 1).1.length ≤ 0) := by
  refine ⟨by decide, by decide, by decide⟩

/-- Witness for C3 (amended) at `blockId = 2`, segment `[0, 8)`,
`num = 2`, identity permutation (legal pool `[4, 5, 6]`). -/
theorem claim3_witness :
    0 < 2 ∧
    ((getSingleBlockRowAttention idGen (idGen.seedFn 0) 2 0 8 2 1 1 1 1).1.Nodup ∧
     (getSingleBlockRowAttention idGen (idGen.seedFn 0) 2 0 8 2 1 1 1 1).1.length ≤ 2 ∧
     (∀ x ∈ (getSingleBlockRowAttention idGen (idGen.seedFn 0) 2 0 8 2 1 1 1 1).1,
        x ∈ legalPool 2 0 8 1 1 1 1) ∧
     (2 ≤ (legalPool 2 0 8 1 1 1 1).length →
       (getSingleBlockRowAttention idGen (idGen.seedFn 0) 2 0 8 2 1 1 1 1).1.length = 2)) :=
  ⟨by decide,
    claim3_amended idGen idGen_perm (idGen.seedFn 0) 2 0 8 2 1 1 1 1 (by decide)⟩

/-! ### Claim C6: two-run determinism -/

/-- **C6.** Two invocations of the block-sparse attention engine with
the same seed, configuration, and inputs produce identical results —
adjacency, context, attention probabilities, and final generator state —
whatever the ambient generator states of the two runs were:
`np.random.seed(seed)` overwrites the ambient state before sampling,
and everything downstream is a pure function of the drawn adjacency and
the inputs. -/
theorem claim6_two_run_determinism (G : RandGen) (seed : ℕ) (P : AttnInputs)
    (numHeads : ℕ) (s1 s2 : G.State) :
    bigbirdBlockSparseAttention G seed P numHeads s1 =
      bigbirdBlockSparseAttention G seed P numHeads s2 := rfl

/-! ### Claim C7: configuration failure modes -/

/-- **C7 (counterexample).** `seqLen = 256`, `blockSize = 64`,
absolute embeddings: the block count is `4 < 5`, yet the engine raises
no configuration error — there is no block-count check in the source,
contradicting the claim that `B < 5` fails before computation. -/
theorem claim7_counterexample :
    engineConfigCheck 256 64 "absolute" = none ∧
      256 / 64 < 5 ∧ 256 % 64 = 0 := by
  refine ⟨by decide, by decide, by decide⟩

/-- **C7 (amended).** A configuration error is raised if and only if
the position-embedding type is not `"absolute"` or the sequence length
is not a multiple of the block size; the number of blocks is never
checked.  Both checks run before any attention computation (in the
constructor and at the top of `forward`, respectively). -/
theorem claim7_amended (seqLen blockSize : ℕ) (pos : String) :
    (engineConfigCheck seqLen blockSize pos).isSome ↔
      (pos ≠ "absolute" ∨ seqLen % blockSize ≠ 0) := by
  unfold engineConfigCheck initCheck forwardLengthCheck
  by_cases hp : pos = "absolute" <;> by_cases hm : seqLen % blockSize = 0 <;>
    simp [hp, hm]

/-! ### Claim C8: the sampler and the ambient generator state -/

/-- **C8 (counterexample).** The engine does not leave the ambient
generator state unchanged: running the `P1` configuration (six blocks,
one head, one random block) from ambient state `999` with seed `0`
ends with generator state `5` — `np.random.seed(seed)` overwrites the
process-global state and five `np.random.permutation` draws advance
it. -/
theorem claim8_counterexample :
    (bigbirdBlockSparseAttention idGen 0 P1 1
        (idGen.seedFn 999)).map (fun out => out.rngAfter) = some 5 ∧
      (5 : ℕ) ≠ 999 := by
  refine ⟨by decide, by decide⟩

/-- **C8 (amended).** The sampler does consume its seed as an explicit
input, but it seeds and advances the process-global generator: the
post-invocation ambient state is a function of the seed and
configuration alone, independent of (and in general different from) the
pre-invocation ambient state. -/
theorem claim8_amended (G : RandGen) (seed : ℕ) (P : AttnInputs)
    (numHeads : ℕ) (s1 s2 : G.State) :
    (bigbirdBlockSparseAttention G seed P numHeads s1).map
        (fun out => out.rngAfter) =
      (bigbirdBlockSparseAttention G seed P numHeads s2).map
        (fun out => out.rngAfter) := rfl

/-! ### Claim C10: the old-paper path is clamped to the first 1024 positions -/

lemma range'_drop (s n a : ℕ) :
    (List.range' s n).drop a = List.range' (s + a) (n - a) := by
  induction a generalizing s n with
  | zero => simp
  | succ a ih =>
      cases n with
      | zero => simp
      | succ n =>
          rw [List.range'_succ, List.drop_succ_cons, ih (s + 1) n]
          congr 1 <;> omega

lemma range'_take (s n k : ℕ) :
    (List.range' s n).take k = List.range' s (min k n) := by
  induction k generalizing s n with
  | zero => simp
  | succ k ih =>
      cases n with
      | zero => simp
      | succ n =>
          rw [List.range'_succ, List.take_succ_cons, ih (s + 1) n]
          rw [show min (k + 1) (n + 1) = min k n + 1 from Nat.succ_min_succ k n]
          rw [List.range'_succ]

/-- Every element of the numpy slice `middle_seq[a:b]` (with
`middle_seq = [1, ..., n]`) lies in `[1, b]`. -/
lemma pySlice_range'_bound {n a b x : ℕ}
    (hx : x ∈ pySlice (List.range' 1 n) a b) : 1 ≤ x ∧ x ≤ b := by
  unfold pySlice at hx
  rw [range'_drop, range'_take, List.mem_range'_1] at hx
  have := min_le_left (b - a) (n - a)
  omega

/-- Every entry of an old-paper adjacency row is in `[1, last]`. -/
lemma randMaskRow_bound (G : RandGen) (hG : SubsetGen G) (rng : G.State)
    (K M last r i : ℕ) :
    ∀ x ∈ (bigbirdBlockRandMaskRow G rng (List.range' 1 K) M last r i).1,
      1 ≤ x ∧ x ≤ last := by
  intro x hx
  unfold bigbirdBlockRandMaskRow at hx
  split_ifs at hx with h1 h2 h3 h4 h5 h6
  · have hx1 := hG rng _ _ (List.mem_of_mem_take hx)
    exact pySlice_range'_bound hx1
  · have hx1 := hG rng _ _ (List.mem_of_mem_take hx)
    exact pySlice_range'_bound hx1
  · have hx1 := hG rng _ _ (List.mem_of_mem_take hx)
    exact pySlice_range'_bound hx1
  · have hx1 := hG rng _ _ (List.mem_of_mem_take hx)
    exact pySlice_range'_bound hx1
  · have hx1 := hG rng _ _ (List.mem_of_mem_take hx)
    exact pySlice_range'_bound hx1
  · have hx1 := hG rng _ _ (List.mem_of_mem_take hx)
    have hb := pySlice_range'_bound hx1
    omega
  · have hx1 := hG rng _ _ (List.mem_of_mem_take hx)
    rcases List.mem_append.mp hx1 with h | h
    · have hb := pySlice_range'_bound h
      omega
    · exact pySlice_range'_bound h

/-- Rows appended by a fold of the shape used by the adjacency builders
all satisfy a predicate provable of every step output. -/
lemma foldl_rows_pred {σ α : Type} (step : σ → ℕ → α × σ) (P : α → Prop)
    (hstep : ∀ s i, P (step s i).1) :
    ∀ (l : List ℕ) (acc : List α × σ), (∀ row ∈ acc.1, P row) →
      ∀ row ∈ (l.foldl
        (fun a i => (a.1 ++ [(step a.2 i).1], (step a.2 i).2)) acc).1, P row := by
  intro l
  induction l with
  | nil => intro acc hacc row hrow; exact hacc row hrow
  | cons i rest ih =>
      intro acc hacc row hrow
      rw [List.foldl_cons] at hrow
      refine ih _ ?_ row hrow
      intro row' hrow'
      rcases List.mem_append.mp hrow' with h | h
      · exact hacc row' h
      · rw [List.mem_singleton] at h
        exact h ▸ hstep acc.2 i

/-- All rows produced by `_bigbird_block_rand_mask` with
`last_idx = 1024` and a block size below 512 have entries in
`[1, 1024 / blockSize - 1]`. -/
lemma bigbirdBlockRandMask_rows_bound (G : RandGen) (hG : SubsetGen G)
    (rng : G.State) (fromSeq toSeq bs r : ℕ) (hlt : bs < 512) :
    ∀ row ∈ (bigbirdBlockRandMask G rng fromSeq toSeq bs bs r 1024).1,
      ∀ x ∈ row, 1 ≤ x ∧ x ≤ 1024 / bs - 1 := by
  intro row hrow
  unfold bigbirdBlockRandMask at hrow
  rw [if_pos (show (1024 : ℤ) > 2 * (bs : ℤ) from by omega)] at hrow
  have hrow' := foldl_rows_pred
    (fun s i => bigbirdBlockRandMaskRow G s
      (List.range' 1 (toSeq / bs - 2)) (fromSeq / bs)
      ((1024 : ℤ).toNat / bs - 1) r i)
    (fun rw1 => ∀ x ∈ rw1, 1 ≤ x ∧ x ≤ 1024 / bs - 1)
    (fun s i => by
      intro x hx
      have := randMaskRow_bound G hG s (toSeq / bs - 2) (fromSeq / bs)
        ((1024 : ℤ).toNat / bs - 1) r i x hx
      simpa using this)
    (List.range' 1 (fromSeq / bs - 2)) ([], rng) (by intro row h; simp at h)
    row hrow
  exact hrow'

/-- **C10.** For `from_seq_length ∈ {1024, 3072, 4096}` (and
`block_size < 512`), the engine takes the old-paper dispatch branch, so
every sampled random key-block index of every head lies in
`[1, 1024 / block_size - 1]`: random attention is confined to blocks
of the first 1024 token positions regardless of the actual sequence
length. -/
theorem claim10_confined (G : RandGen) (hG : SubsetGen G) (rng : G.State)
    (seqLen blockSize r numHeads : ℕ)
    (hseq : seqLen = 1024 ∨ seqLen = 3072 ∨ seqLen = 4096)
    (hbs : 0 < blockSize) (hlt : blockSize < 512) :
    ∀ p, generateRandAttn G rng seqLen blockSize r numHeads 4096 = some p →
      ∀ headRows ∈ p.1, ∀ row ∈ headRows, ∀ x ∈ row,
        1 ≤ x ∧ x ≤ 1024 / blockSize - 1 := by
  intro p hp headRows hh row hrow x hx
  unfold generateRandAttn at hp
  rw [if_pos hseq] at hp
  have hp' := Option.some.inj hp
  rw [← hp'] at hh
  have hmem := foldl_rows_pred
    (fun s _ => ((bigbirdBlockRandMask G s 4096 4096 blockSize blockSize
        r 1024).1.take (seqLen / blockSize - 2),
      (bigbirdBlockRandMask G s 4096 4096 blockSize blockSize r 1024).2))
    (fun hr => ∀ row' ∈ hr, ∀ x' ∈ row', 1 ≤ x' ∧ x' ≤ 1024 / blockSize - 1)
    (fun s i => by
      intro row' hrow' x' hx'
      exact bigbirdBlockRandMask_rows_bound G hG s 4096 4096 blockSize r hlt
        row' (List.mem_of_mem_take hrow') x' hx')
    (List.range numHeads) ([], rng) (by intro row' h; simp at h)
    headRows hh
  exact hmem row hrow x hx

/-- Witness for C10: `seqLen = 1024`, `blockSize = 128`, `r = 1`, one
head, identity permutations.  The adjacency row of query block 1 is
`[3]`, and `3 ∈ [1, 1024/128 - 1]`. -/
theorem claim10_witness :
    (3 : ℕ) ∈ ((((generateRandAttn idGen (idGen.seedFn 0)
        1024 128 1 1 4096).getD ([], 0)).1.getD 0 []).getD 0 []) ∧
      1 ≤ 3 ∧ 3 ≤ 1024 / 128 - 1 := by
  refine ⟨by decide, ?_⟩
  refine claim10_confined idGen (idGen_perm.subsetGen) (idGen.seedFn 0)
    1024 128 1 1 (by decide) (by decide) (by decide)
    ((generateRandAttn idGen (idGen.seedFn 0) 1024 128 1 1 4096).getD ([], 0))
    (by decide)
    ((((generateRandAttn idGen (idGen.seedFn 0)
        1024 128 1 1 4096).getD ([], 0)).1.getD 0 [])) (by decide)
    ((((generateRandAttn idGen (idGen.seedFn 0)
        1024 128 1 1 4096).getD ([], 0)).1.getD 0 []).getD 0 []) (by decide)
    3 (by decide)

/-! ### Claim C9: the dense `attention_probs` scatter -/

lemma block_lt_iff {wn i qr a : ℕ} (hqr : qr < wn) :
    i * wn + qr < a * wn ↔ i < a := by
  constructor
  · intro h
    by_contra hna
    push_neg at hna
    have h2 : a * wn ≤ i * wn := Nat.mul_le_mul_right wn hna
    omega
  · intro h
    have h2 : (i + 1) * wn ≤ a * wn := Nat.mul_le_mul_right wn h
    have h3 : (i + 1) * wn = i * wn + wn := by ring
    omega

lemma block_lt_one_iff {wn i qr : ℕ} (hqr : qr < wn) :
    i * wn + qr < wn ↔ i = 0 := by
  constructor
  · intro hlt
    rcases Nat.eq_zero_or_pos i with h0 | h0
    · exact h0
    · have h2 : wn ≤ i * wn := Nat.le_mul_of_pos_left wn h0
      omega
  · intro h0
    subst h0
    omega

lemma block_le_iff {wn c cr a : ℕ} (hcr : cr < wn) :
    a * wn ≤ c * wn + cr ↔ a ≤ c := by
  constructor
  · intro h
    by_contra hna
    push_neg at hna
    have h2 : (c + 1) * wn ≤ a * wn := Nat.mul_le_mul_right wn hna
    have h3 : (c + 1) * wn = c * wn + wn := by ring
    omega
  · intro h
    have h2 : a * wn ≤ c * wn := Nat.mul_le_mul_right wn h
    omega

/-- **C9 (counterexample).** At the all-ones configuration `P0`
(`B = 5`, `wn = 1`), the returned dense attention map is `0` at the
interior row 2, window column 1, although that row-group's softmax
weight there is `1/6 ≠ 0`: the interior scatter is commented out in
the source, so interior rows carry no weights at all, contradicting
the claim. -/
theorem claim9_counterexample :
    attnProbs P0 adj0 0 0 2 1 = 0 ∧
      interiorAttnWeights P0 adj0 0 0 0 0 1 ≠ 0 := by
  refine ⟨rfl, ?_⟩
  norm_num [interiorAttnWeights, softmaxAt, softmaxDenom, P0]

/-- **C9 (amended).** The dense map contains: the first and last block
rows' full weights; the second block rows' weights at window-block
columns `0, 1, 2` and global column `B-1` only; the second-to-last
rows' weights at column block `0` and blocks `B-3, B-2, B-1` only;
interior rows are left entirely zero (their window, random, and global
weights are not scattered), and the random-block columns of the second
and second-to-last rows are likewise omitted; every other entry is
zero. -/
theorem claim9_amended (P : AttnInputs) (adj : ℕ → ℕ → ℕ → ℕ)
    (b h i qr c cr : ℕ) (hB : 5 ≤ P.B) (hwn : 0 < P.wn) (hi : i < P.B)
    (hqr : qr < P.wn) (hc : c < P.B) (hcr : cr < P.wn) :
    attnProbs P adj b h (i * P.wn + qr) (c * P.wn + cr) =
      if i = 0 then firstAttnWeights P b h qr (c * P.wn + cr)
      else if i = 1 then
        (if c ≤ 2 then secondAttnWeights P adj b h qr (c * P.wn + cr)
         else if c = P.B - 1 then secondAttnWeights P adj b h qr (3 * P.wn + cr)
         else 0)
      else if i ≤ P.B - 3 then 0
      else if i = P.B - 2 then
        (if c = 0 then secondLastAttnWeights P adj b h qr cr
         else if P.B - 3 ≤ c then
           secondLastAttnWeights P adj b h qr
             (P.wn + (c - (P.B - 3)) * P.wn + cr)
         else 0)
      else lastAttnWeights P b h qr (c * P.wn + cr) := by
  have hn1 : P.n - P.wn = (P.B - 1) * P.wn := by
    rw [Nat.sub_mul, one_mul]; rfl
  have hn2 : P.n - 2 * P.wn = (P.B - 2) * P.wn := by
    rw [Nat.sub_mul]; rfl
  have hn3 : P.n - 3 * P.wn = (P.B - 3) * P.wn := by
    rw [Nat.sub_mul]; rfl
  unfold attnProbs
  by_cases hi0 : i = 0
  · subst hi0
    rw [if_pos (show 0 * P.wn + qr < P.wn from by omega), if_pos rfl]
    norm_num
  by_cases hi1 : i = 1
  · subst hi1
    rw [if_neg (show ¬ (1 * P.wn + qr < P.wn) from by omega),
      if_pos (show 1 * P.wn + qr < 2 * P.wn from by omega),
      if_neg hi0, if_pos rfl]
    have hq : 1 * P.wn + qr - P.wn = qr := by omega
    by_cases hc2 : c ≤ 2
    · rw [if_pos ((block_lt_iff hcr).mpr (by omega)), if_pos hc2, hq]
    · have hcol3 : ¬ (c * P.wn + cr < 3 * P.wn) := by
        intro hlt
        have := (block_lt_iff hcr).mp hlt
        omega
      rw [if_neg hcol3, if_neg hc2]
      by_cases hcB : c = P.B - 1
      · rw [if_pos (by rw [hn1]; exact (block_le_iff hcr).mpr (by omega)),
          if_pos hcB, hq, hn1]
        have hcol : c * P.wn + cr - (P.B - 1) * P.wn = cr := by
          subst hcB; omega
        rw [hcol]
      · rw [if_neg (by
            rw [hn1]
            intro hle
            have := (block_le_iff hcr).mp hle
            exact hcB (by omega)),
          if_neg hcB]
  by_cases hiM : i ≤ P.B - 3
  · have h2 : ¬ (i * P.wn + qr < P.wn) := by
      intro hlt
      have := (block_lt_one_iff hqr).mp hlt
      omega
    have h3 : ¬ (i * P.wn + qr < 2 * P.wn) := by
      intro hlt
      have := (block_lt_iff hqr).mp hlt
      omega
    rw [if_neg h2, if_neg h3,
      if_pos (by rw [hn2]; exact (block_lt_iff hqr).mpr (by omega)),
      if_neg hi0, if_neg hi1, if_pos hiM]
  by_cases hiSL : i = P.B - 2
  · subst hiSL
    have h2 : ¬ ((P.B - 2) * P.wn + qr < P.wn) := by
      intro hlt
      have := (block_lt_one_iff hqr).mp hlt
      omega
    have h3 : ¬ ((P.B - 2) * P.wn + qr < 2 * P.wn) := by
      intro hlt
      have := (block_lt_iff hqr).mp hlt
      omega
    have h4 : ¬ ((P.B - 2) * P.wn + qr < P.n - 2 * P.wn) := by
      rw [hn2]
      intro hlt
      have := (block_lt_iff hqr).mp hlt
      omega
    have h5 : (P.B - 2) * P.wn + qr < P.n - P.wn := by
      rw [hn1]
      exact (block_lt_iff hqr).mpr (by omega)
    rw [if_neg h2, if_neg h3, if_neg h4, if_pos h5,
      if_neg hi0, if_neg hi1, if_neg hiM, if_pos rfl]
    have hq : (P.B - 2) * P.wn + qr - (P.n - 2 * P.wn) = qr := by
      rw [hn2]; omega
    rw [hq]
    by_cases hc0 : c = 0
    · subst hc0
      rw [if_pos (show 0 * P.wn + cr < P.wn from by omega), if_pos rfl]
      norm_num
    · have hcw : ¬ (c * P.wn + cr < P.wn) := by
        intro hlt
        have := (block_lt_one_iff hcr).mp hlt
        omega
      rw [if_neg hcw, if_neg hc0]
      by_cases hc3 : P.B - 3 ≤ c
      · rw [if_pos (by rw [hn3]; exact (block_le_iff hcr).mpr hc3), if_pos hc3]
        have hkey : (c - (P.B - 3)) * P.wn = c * P.wn - (P.B - 3) * P.wn :=
          Nat.sub_mul _ _ _
        have hle2 : (P.B - 3) * P.wn ≤ c * P.wn := Nat.mul_le_mul_right _ hc3
        have hidx : P.wn + (c * P.wn + cr - (P.n - 3 * P.wn)) =
            P.wn + (c - (P.B - 3)) * P.wn + cr := by
          rw [hn3]; omega
        rw [hidx]
      · rw [if_neg (by
            rw [hn3]
            intro hle
            exact hc3 ((block_le_iff hcr).mp hle)), if_neg hc3]
  · have hiL : i = P.B - 1 := by omega
    subst hiL
    have h2 : ¬ ((P.B - 1) * P.wn + qr < P.wn) := by
      intro hlt
      have := (block_lt_one_iff hqr).mp hlt
      omega
    have h3 : ¬ ((P.B - 1) * P.wn + qr < 2 * P.wn) := by
      intro hlt
      have := (block_lt_iff hqr).mp hlt
      omega
    have h4 : ¬ ((P.B - 1) * P.wn + qr < P.n - 2 * P.wn) := by
      rw [hn2]
      intro hlt
      have := (block_lt_iff hqr).mp hlt
      omega
    have h5 : ¬ ((P.B - 1) * P.wn + qr < P.n - P.wn) := by
      rw [hn1]
      intro hlt
      have := (block_lt_iff hqr).mp hlt
      omega
    rw [if_neg h2, if_neg h3, if_neg h4, if_neg h5,
      if_neg hi0, if_neg hi1, if_neg hiM, if_neg hiSL]
    have hq : (P.B - 1) * P.wn + qr - (P.n - P.wn) = qr := by
      rw [hn1]; omega
    rw [hq]

/-- Witness for C9 (amended) at `P0`, interior row block 2, column
block 1 (its left window block): the dense map entry is `0`. -/
theorem claim9_witness :
    attnProbs P0 adj0 0 0 (2 * P0.wn + 0) (1 * P0.wn + 0) = 0 := by
  have h := claim9_amended P0 adj0 0 0 2 0 1 0 (by decide) (by decide)
    (by decide) (by decide) (by decide) (by decide)
  simpa using h

/-! ### Claim C1: supporting lemmas -/

lemma mem_iff_cell {l : List ℕ} {x : ℕ} (h : x ∈ l) :
    ∃ n, n < l.length ∧ l[n]? = some x := by
  obtain ⟨n, hn, he⟩ := List.getElem_of_mem h
  exact ⟨n, hn, by rw [List.getElem?_eq_getElem hn, he]⟩

lemma prefSum_succ (l : List ℕ) (k : ℕ) :
    prefSum l (k + 1) = prefSum l k + l.getD k 0 := by
  unfold prefSum
  rw [List.take_succ, List.sum_append]
  cases h : l[k]? with
  | none =>
      rw [List.getD_eq_getElem?_getD, h]
      simp
  | some a =>
      rw [List.getD_eq_getElem?_getD, h]
      simp

lemma prefSum_mono (l : List ℕ) {a b : ℕ} (h : a ≤ b) :
    prefSum l a ≤ prefSum l b := by
  induction b with
  | zero =>
      rw [Nat.le_zero.mp h]
  | succ b ih =>
      rcases Nat.lt_or_ge a (b + 1) with h2 | h2
      · have := prefSum_succ l b
        have := ih (by omega)
        omega
      · rw [Nat.le_antisymm h h2]

/-- Any column below the total width is inside some earlier segment's
column range, and that segment's budget is positive. -/
lemma prefSum_cover (pnrb : List ℕ) (m c : ℕ) (hc : c < prefSum pnrb m) :
    ∃ k, k < m ∧ 0 < pnrb.getD k 0 ∧ prefSum pnrb k ≤ c ∧
      c < prefSum pnrb (k + 1) := by
  induction m with
  | zero => simp [prefSum] at hc
  | succ m ih =>
      by_cases h : c < prefSum pnrb m
      · obtain ⟨k, h1, h2, h3, h4⟩ := ih h
        exact ⟨k, by omega, h2, h3, h4⟩
      · have hs := prefSum_succ pnrb m
        exact ⟨m, by omega, by omega, by omega, hc⟩

/-- With the default window/global parameters (`1` each), the illegal
set contains the window `{i-1, i, i+1}`, block `0`, and the segment's
last block `toEnd - 1`. -/
lemma illegal_contains (i toEnd : ℕ) (z : ℤ)
    (hz : z = (i : ℤ) - 1 ∨ z = (i : ℤ) ∨ z = (i : ℤ) + 1 ∨ z = 0 ∨
      z = (toEnd : ℤ) - 1) :
    z ∈ illegalBlocksFor i toEnd 1 1 1 1 := by
  unfold illegalBlocksFor
  simp only [List.mem_append, List.mem_map, List.mem_range]
  rcases hz with hz | hz | hz | hz | hz
  · exact Or.inl (Or.inl (Or.inl (Or.inl ⟨0, by omega, by push_cast; omega⟩)))
  · exact Or.inl (Or.inl (Or.inl (Or.inl ⟨1, by omega, by push_cast; omega⟩)))
  · exact Or.inl (Or.inl (Or.inl (Or.inl ⟨2, by omega, by push_cast; omega⟩)))
  · exact Or.inl (Or.inl (Or.inl (Or.inr ⟨0, by omega, by push_cast; omega⟩)))
  · exact Or.inl (Or.inl (Or.inr ⟨0, by omega, by push_cast; omega⟩))

/-- Every entry selected by `_get_single_block_row_attention` (with
default window/global parameters) for query block `i ≥ 1` over segment
`[toStart, toEnd)` with `toEnd ≤ B` is below `toEnd` and avoids the
forbidden set `{i-1, i, i+1, 0, B-1}`. -/
lemma singleRow_not_forbidden (G : RandGen) (hG : SubsetGen G) (rng : G.State)
    (B i toStart toEnd num : ℕ) (hi : 1 ≤ i) (hts : toStart ≤ toEnd)
    (hte : toEnd ≤ B) :
    ∀ x ∈ (getSingleBlockRowAttention G rng i toStart toEnd num 1 1 1 1).1,
      x < toEnd ∧ ¬ Forbidden B i x := by
  intro x hx
  unfold getSingleBlockRowAttention at hx
  rcases selectRandomBlocks_sub _ _ _ [] x hx with h | ⟨h1, h2⟩
  · simp at h
  have hxr : x ∈ List.range' toStart (toEnd - toStart) := hG rng _ x h1
  rw [List.mem_range'_1] at hxr
  have hxlt : x < toEnd := by omega
  refine ⟨hxlt, ?_⟩
  intro hf
  unfold Forbidden at hf
  rcases hf with hf | hf | hf | hf | hf
  · exact h2 (illegal_contains i toEnd _ (Or.inl (by omega)))
  · exact h2 (illegal_contains i toEnd _ (Or.inr (Or.inl (by omega))))
  · exact h2 (illegal_contains i toEnd _ (Or.inr (Or.inr (Or.inl (by omega)))))
  · exact h2 (illegal_contains i toEnd _
      (Or.inr (Or.inr (Or.inr (Or.inl (by omega))))))
  · rcases Nat.lt_or_ge toEnd B with hlt2 | hge
    · omega
    · exact h2 (illegal_contains i toEnd _
        (Or.inr (Or.inr (Or.inr (Or.inr (by omega))))))

/-- The effect of a successful `writeSlice`. -/
lemma writeSlice_spec {row vals row' : List ℕ} {a b : ℕ}
    (hw : writeSlice row a b vals = some row') :
    row'.length = row.length ∧
    (∀ c, c < a ∨ b ≤ c → row'[c]? = row[c]?) ∧
    (∀ c, a ≤ c → c < b → row'[c]? = vals[c - a]?) := by
  unfold writeSlice at hw
  split_ifs at hw with hcond
  · obtain ⟨hab, hbl, hvl⟩ := hcond
    have hrw : row' = row.take a ++ vals ++ row.drop b := (Option.some.inj hw).symm
    have hlt : (row.take a).length = a := by
      rw [List.length_take]
      omega
    have hlv : (row.take a ++ vals).length = b := by
      rw [List.length_append, hlt, hvl]
      omega
    subst hrw
    refine ⟨?_, ?_, ?_⟩
    · simp only [List.length_append, List.length_take, List.length_drop]
      omega
    · intro c hc
      rcases hc with hc | hc
      · rw [List.getElem?_append_left (by rw [hlv]; omega),
          List.getElem?_append_left (by rw [hlt]; omega),
          List.getElem?_take_of_lt (by omega)]
      · rw [List.getElem?_append_right (by rw [hlv]; omega), hlv,
          List.getElem?_drop]
        congr 1
        omega
    · intro c hca hcb
      rw [List.getElem?_append_left (by rw [hlv]; omega),
        List.getElem?_append_right (by rw [hlt]; omega), hlt]

/-- The effect of one successful `sampleWrite` on the builder state:
other cells untouched, the written row keeps its length, its columns
outside `[a, b)` keep their values, and its columns inside `[a, b)`
become entries of a fresh sample, hence not forbidden. -/
lemma sampleWrite_post (G : RandGen) (hG : SubsetGen G) {B : ℕ}
    {h i a b toStart toEnd num : ℕ} {st st' : BuildSt G.State}
    (hw : sampleWrite G 1 1 1 1 h i a b toStart toEnd num st = some st')
    (hi1 : 1 ≤ i) (hts : toStart ≤ toEnd) (hte : toEnd ≤ B) :
    (∀ h' i', ¬ (h' = h ∧ i' = i) → st'.attn h' i' = st.attn h' i') ∧
    (st'.attn h i).length = (st.attn h i).length ∧
    (∀ c, c < a ∨ b ≤ c → (st'.attn h i)[c]? = (st.attn h i)[c]?) ∧
    (∀ c, a ≤ c → c < b → CellOk B i (st'.attn h i) c) := by
  unfold sampleWrite at hw
  rw [Option.map_eq_some'] at hw
  obtain ⟨row', hws, hst⟩ := hw
  obtain ⟨hlen, hout, hin⟩ := writeSlice_spec hws
  subst hst
  have hrow : updAttn st.attn h i row' h i = row' := by
    unfold updAttn
    rw [if_pos ⟨rfl, rfl⟩]
  refine ⟨?_, ?_, ?_, ?_⟩
  · intro h' i' hne
    show updAttn st.attn h i row' h' i' = st.attn h' i'
    unfold updAttn
    rw [if_neg hne]
  · show (updAttn st.attn h i row' h i).length = _
    rw [hrow]
    exact hlen
  · intro c hc
    show (updAttn st.attn h i row' h i)[c]? = _
    rw [hrow]
    exact hout c hc
  · intro c hca hcb x hx
    rw [show (BuildSt.mk (updAttn st.attn h i row')
        (getSingleBlockRowAttention G st.rng i toStart toEnd num 1 1 1 1).2).attn
        h i = row' from hrow] at hx
    rw [hin c hca hcb] at hx
    obtain ⟨hlt2, he⟩ := List.getElem?_eq_some_iff.mp hx
    have hxmem := he ▸ List.getElem_mem hlt2
    exact (singleRow_not_forbidden G hG st.rng B i toStart toEnd num
      hi1 hts hte x hxmem).2

/-- The effect of the inner `for h in range(num_heads)` loop at a fixed
row `i`: rows other than `i` untouched, lengths preserved, columns
outside `[a, b)` preserved, and columns in `[a, b)` of every processed
head's row not forbidden. -/
lemma headsFold_post (G : RandGen) (hG : SubsetGen G) {B : ℕ}
    {i a b toStart toEnd num : ℕ} (hi1 : 1 ≤ i) (hts : toStart ≤ toEnd)
    (hte : toEnd ≤ B) :
    ∀ (L : List ℕ) (st st' : BuildSt G.State),
      L.foldlM (fun st2 h =>
        sampleWrite G 1 1 1 1 h i a b toStart toEnd num st2) st = some st' →
      (∀ h' i', i' ≠ i → st'.attn h' i' = st.attn h' i') ∧
      (∀ h', (st'.attn h' i).length = (st.attn h' i).length) ∧
      (∀ h' c, c < a ∨ b ≤ c → (st'.attn h' i)[c]? = (st.attn h' i)[c]?) ∧
      (∀ h' ∈ L, ∀ c, a ≤ c → c < b → CellOk B i (st'.attn h' i) c) ∧
      (∀ h', h' ∉ L → st'.attn h' i = st.attn h' i) := by
  intro L
  induction L with
  | nil =>
      intro st st' hf
      rw [List.foldlM_nil] at hf
      obtain rfl := Option.some.inj hf
      exact ⟨fun _ _ _ => rfl, fun _ => rfl, fun _ _ _ => rfl,
        by intro h' hh; simp at hh, fun _ _ => rfl⟩
  | cons hd tl ih =>
      intro st st' hf
      rw [List.foldlM_cons] at hf
      obtain ⟨st1, h1, h2⟩ := Option.bind_eq_some.mp hf
      obtain ⟨hA1, hA2, hA3, hA4⟩ := sampleWrite_post G hG h1 hi1 hts hte
      obtain ⟨hB1, hB2, hB3, hB4, hB5⟩ := ih st1 st' h2
      refine ⟨?_, ?_, ?_, ?_, ?_⟩
      · intro h' i' hne
        rw [hB1 h' i' hne, hA1 h' i' (fun hc => hne hc.2)]
      · intro h'
        rw [hB2 h']
        by_cases hh : h' = hd
        · subst hh
          exact hA2
        · rw [hA1 h' i (fun hc => hh hc.1)]
      · intro h' c hc
        rw [hB3 h' c hc]
        by_cases hh : h' = hd
        · subst hh
          exact hA3 c hc
        · rw [hA1 h' i (fun hcc => hh hcc.1)]
      · intro h' hmem c hca hcb
        rcases List.mem_cons.mp hmem with hh | hh
        · subst hh
          by_cases htl : h' ∈ tl
          · exact hB4 h' htl c hca hcb
          · intro x hx
            rw [hB5 h' htl] at hx
            exact hA4 c hca hcb x hx
        · exact hB4 h' hh c hca hcb
      · intro h' hnmem
        rw [hB5 h' (fun hh => hnmem (List.mem_cons_of_mem _ hh)),
          hA1 h' i (fun hc => hnmem (hc.1 ▸ List.mem_cons_self _ _))]

lemma InvC_mono {H W B : ℕ} {C C' : ℕ → ℕ → Prop} {attn : ℕ → ℕ → List ℕ}
    (hCC : ∀ i c, C' i c → C i c) (h : InvC H W B C attn) :
    InvC H W B C' attn :=
  ⟨h.1, fun h' i c hh hc => h.2 h' i c hh (hCC i c hc)⟩

/-- The effect of one `phaseRun` (rows `R`, columns `[a, b)`): the
invariant's coverage grows by the rectangle `R × [a, b)`. -/
lemma phaseRun_post (G : RandGen) (hG : SubsetGen G) {H W B : ℕ}
    {a b toStart toEnd num : ℕ} (hts : toStart ≤ toEnd) (hte : toEnd ≤ B) :
    ∀ (R : List ℕ), (∀ i ∈ R, 1 ≤ i) →
      ∀ (C : ℕ → ℕ → Prop) (st st' : BuildSt G.State),
      phaseRun G 1 1 1 1 H R a b toStart toEnd num st = some st' →
      InvC H W B C st.attn →
      InvC H W B (fun i c => C i c ∨ (i ∈ R ∧ a ≤ c ∧ c < b)) st'.attn := by
  intro R
  induction R with
  | nil =>
      intro _ C st st' hrun hinv
      unfold phaseRun at hrun
      rw [List.foldlM_nil] at hrun
      obtain rfl := Option.some.inj hrun
      refine InvC_mono ?_ hinv
      intro i c hc
      rcases hc with hc | ⟨hmem, _⟩
      · exact hc
      · simp at hmem
  | cons i0 R' ih =>
      intro hR C st st' hrun hinv
      unfold phaseRun at hrun
      rw [List.foldlM_cons] at hrun
      obtain ⟨st1, h1, h2⟩ := Option.bind_eq_some.mp hrun
      obtain ⟨hh1, hh2, hh3, hh4, hh5⟩ := headsFold_post G hG
        (hR i0 (List.mem_cons_self i0 R')) hts hte (List.range H) st st1 h1
      have hinv1 : InvC H W B
          (fun i c => C i c ∨ (i = i0 ∧ a ≤ c ∧ c < b)) st1.attn := by
        constructor
        · intro h' i'
          by_cases hi' : i' = i0
          · subst hi'
            rw [hh2 h']
            exact hinv.1 h' _
          · rw [hh1 h' i' hi']
            exact hinv.1 h' i'
        · intro h' i' c hhH hc
          rcases hc with hc | ⟨hceq, hca, hcb⟩
          · by_cases hi' : i' = i0
            · subst hi'
              by_cases hcab : a ≤ c ∧ c < b
              · exact hh4 h' (List.mem_range.mpr hhH) c hcab.1 hcab.2
              · intro x hx
                rw [hh3 h' c (by omega)] at hx
                exact hinv.2 h' _ c hhH hc x hx
            · intro x hx
              rw [hh1 h' i' hi'] at hx
              exact hinv.2 h' i' c hhH hc x hx
          · subst hceq
            exact hh4 h' (List.mem_range.mpr hhH) c hca hcb
      have hres := ih (fun i hi => hR i (List.mem_cons_of_mem _ hi))
        (fun i c => C i c ∨ (i = i0 ∧ a ≤ c ∧ c < b)) st1 st' h2 hinv1
      refine InvC_mono ?_ hres
      intro i c hc
      show (C i c ∨ (i = i0 ∧ a ≤ c ∧ c < b)) ∨ (i ∈ R' ∧ a ≤ c ∧ c < b)
      rcases hc with hc | ⟨hmem, hca, hcb⟩
      · exact Or.inl (Or.inl hc)
      · rcases List.mem_cons.mp hmem with hh | hh
        · exact Or.inl (Or.inr ⟨hh, hca, hcb⟩)
        · exact Or.inr ⟨hh, hca, hcb⟩

/-- The effect of the `for pl_id in range(plan_idx)` loop (part (b) of
a plan step): for every processed earlier segment with positive budget,
its column range is filled for the current segment's rows. -/
lemma bFold_post (G : RandGen) (hG : SubsetGen G) {H W B planIdx : ℕ}
    {pbl pnrb : List ℕ}
    (hrow1 : 1 ≤ pbl.getD (planIdx - 1) 0)
    (hmonp : pbl.getD (planIdx - 1) 0 ≤ pbl.getD planIdx 0)
    (hle : ∀ k, k < planIdx → pbl.getD k 0 ≤ B)
    (htsb : ∀ k, k < planIdx →
      (if 0 < k then pbl.getD (k - 1) 0 else 0) ≤ pbl.getD k 0) :
    ∀ (L : List ℕ), (∀ k ∈ L, k < planIdx) →
      ∀ (C : ℕ → ℕ → Prop) (st st' : BuildSt G.State),
      L.foldlM (fun st2 plId => if pnrb.getD plId 0 = 0 then pure st2
        else phaseRun G 1 1 1 1 H
          (List.range' (pbl.getD (planIdx - 1) 0)
            (pbl.getD planIdx 0 - pbl.getD (planIdx - 1) 0))
          (prefSum pnrb plId) (prefSum pnrb (plId + 1))
          (if 0 < plId then pbl.getD (plId - 1) 0 else 0)
          (pbl.getD plId 0) (pnrb.getD plId 0) st2) st = some st' →
      InvC H W B C st.attn →
      InvC H W B (fun i c => C i c ∨ (∃ k ∈ L, 0 < pnrb.getD k 0 ∧
        prefSum pnrb k ≤ c ∧ c < prefSum pnrb (k + 1) ∧
        pbl.getD (planIdx - 1) 0 ≤ i ∧ i < pbl.getD planIdx 0)) st'.attn := by
  intro L
  induction L with
  | nil =>
      intro _ C st st' hrun hinv
      rw [List.foldlM_nil] at hrun
      obtain rfl := Option.some.inj hrun
      refine InvC_mono ?_ hinv
      intro i c hc
      rcases hc with hc | ⟨k, hk, _⟩
      · exact hc
      · simp at hk
  | cons k L' ih =>
      intro hL C st st' hrun hinv
      rw [List.foldlM_cons] at hrun
      obtain ⟨st1, h1, h2⟩ := Option.bind_eq_some.mp hrun
      have hk : k < planIdx := hL k (List.mem_cons_self k L')
      have hstep1 : InvC H W B
          (fun i c => C i c ∨ (0 < pnrb.getD k 0 ∧
            prefSum pnrb k ≤ c ∧ c < prefSum pnrb (k + 1) ∧
            pbl.getD (planIdx - 1) 0 ≤ i ∧ i < pbl.getD planIdx 0))
          st1.attn := by
        by_cases hk0 : pnrb.getD k 0 = 0
        · rw [if_pos hk0] at h1
          obtain rfl := Option.some.inj h1
          refine InvC_mono ?_ hinv
          intro i c hc
          rcases hc with hc | ⟨hpos0, _⟩
          · exact hc
          · omega
        · rw [if_neg hk0] at h1
          have hpp := phaseRun_post G hG (W := W)
            (show (if 0 < k then pbl.getD (k - 1) 0 else 0) ≤ pbl.getD k 0
              from htsb k hk)
            (hle k hk)
            (List.range' (pbl.getD (planIdx - 1) 0)
              (pbl.getD planIdx 0 - pbl.getD (planIdx - 1) 0))
            (by
              intro i hi
              rw [List.mem_range'_1] at hi
              omega)
            C st st1 h1 hinv
          refine InvC_mono ?_ hpp
          intro i c hc
          rcases hc with hc | ⟨hpos0, hca, hcb, hi1, hi2⟩
          · exact Or.inl hc
          · exact Or.inr ⟨List.mem_range'_1.mpr ⟨hi1, by omega⟩, hca, hcb⟩
      have hres := ih (fun k' hk' => hL k' (List.mem_cons_of_mem _ hk'))
        (fun i c => C i c ∨ (0 < pnrb.getD k 0 ∧
          prefSum pnrb k ≤ c ∧ c < prefSum pnrb (k + 1) ∧
          pbl.getD (planIdx - 1) 0 ≤ i ∧ i < pbl.getD planIdx 0))
        st1 st' h2 hstep1
      refine InvC_mono ?_ hres
      intro i c hc
      show (C i c ∨ _) ∨ _
      rcases hc with hc | ⟨k', hk', hrest⟩
      · exact Or.inl (Or.inl hc)
      · rcases List.mem_cons.mp hk' with hh | hh
        · subst hh
          exact Or.inl (Or.inr hrest)
        · exact Or.inr ⟨k', hh, hrest⟩

/-- One full plan step extends the invariant's coverage from
`CoveredBy planIdx` to `CoveredBy (planIdx + 1)`: part (a) fills the
current segment's columns for the earlier rows, part (b) fills every
earlier segment's columns for the current rows, and part (c) fills the
current segment's columns for the current rows. -/
lemma planStep_post (G : RandGen) (hG : SubsetGen G) {H W B : ℕ}
    (pbl pnrb : List ℕ) (planIdx : ℕ)
    (hpos : ∀ k, k ≤ planIdx → 1 ≤ pbl.getD k 0)
    (hle : ∀ k, k ≤ planIdx → pbl.getD k 0 ≤ B)
    (hmon : ∀ k, k + 1 ≤ planIdx → pbl.getD k 0 ≤ pbl.getD (k + 1) 0)
    {st st' : BuildSt G.State}
    (hstep : planStep G 1 1 1 1 1 H pbl pnrb planIdx st = some st')
    (hinv : InvC H W B (CoveredBy pbl pnrb planIdx) st.attn) :
    InvC H W B (CoveredBy pbl pnrb (planIdx + 1)) st'.attn := by
  have hmonp : pbl.getD (planIdx - 1) 0 ≤ pbl.getD planIdx 0 := by
    rcases Nat.eq_zero_or_pos planIdx with h0 | h0
    · rw [h0]
    · have hm := hmon (planIdx - 1) (by omega)
      rw [Nat.sub_add_cancel h0] at hm
      exact hm
  unfold planStep at hstep
  obtain ⟨stA, hA, hrest⟩ := Option.bind_eq_some.mp hstep
  obtain ⟨stB, hBB, hCC⟩ := Option.bind_eq_some.mp hrest
  by_cases hp0 : planIdx = 0
  · subst hp0
    rw [if_neg (by simp)] at hA
    obtain rfl := Option.some.inj hA
    rw [if_neg (by omega)] at hBB
    obtain rfl := Option.some.inj hBB
    by_cases hr0 : pnrb.getD 0 0 = 0
    · rw [if_pos hr0] at hCC
      obtain rfl := Option.some.inj hCC
      refine InvC_mono ?_ hinv
      intro i c hc
      obtain ⟨k, hk1, hk2, _⟩ := hc
      have hk0 : k = 0 := by omega
      subst hk0
      exact absurd hk2 (by omega)
    · rw [if_neg hr0] at hCC
      simp only [lt_self_iff_false, if_false] at hCC
      have hres := phaseRun_post G hG (W := W)
        (Nat.zero_le _) (hle 0 (by omega))
        (List.range' 1 (pbl.getD 0 0 - 1))
        (by intro i hi; exact (List.mem_range'_1.mp hi).1)
        (CoveredBy pbl pnrb 0) st st' hCC hinv
      refine InvC_mono ?_ hres
      intro i c hc
      obtain ⟨k, hk1, hk2, hca, hcb, hi1, hi2⟩ := hc
      have hk0 : k = 0 := by omega
      subst hk0
      have hi2b : i < pbl.getD 0 0 := by simpa using hi2
      refine Or.inr ⟨List.mem_range'_1.mpr ⟨hi1, ?_⟩, hca, hcb⟩
      have := hpos 0 (by omega)
      omega
  · have hp1 : 0 < planIdx := by omega
    have hinvA : InvC H W B (fun i c => CoveredBy pbl pnrb planIdx i c ∨
        (0 < pnrb.getD planIdx 0 ∧ 1 ≤ i ∧ i < pbl.getD (planIdx - 1) 0 ∧
          prefSum pnrb planIdx ≤ c ∧ c < prefSum pnrb (planIdx + 1)))
        stA.attn := by
      by_cases hcA : 0 < planIdx ∧ 0 < pnrb.getD planIdx 0
      · rw [if_pos hcA] at hA
        have hres := phaseRun_post G hG (W := W) hmonp (hle planIdx le_rfl)
          (List.range' 1 (pbl.getD (planIdx - 1) 0 - 1))
          (by intro i hi; exact (List.mem_range'_1.mp hi).1)
          (CoveredBy pbl pnrb planIdx) st stA hA hinv
        refine InvC_mono ?_ hres
        intro i c hc
        rcases hc with hc | ⟨hcp, hi1, hi2, hca, hcb⟩
        · exact Or.inl hc
        · refine Or.inr ⟨List.mem_range'_1.mpr ⟨hi1, ?_⟩, hca, hcb⟩
          have := hpos (planIdx - 1) (by omega)
          omega
      · rw [if_neg hcA] at hA
        obtain rfl := Option.some.inj hA
        refine InvC_mono ?_ hinv
        intro i c hc
        rcases hc with hc | ⟨hcp, _⟩
        · exact hc
        · exact absurd ⟨hp1, hcp⟩ hcA
    rw [if_pos hp1] at hBB
    have hinvB := bFold_post G hG (hpos (planIdx - 1) (by omega)) hmonp
      (fun k hk => hle k (by omega))
      (fun k hk => by
        by_cases h0k : 0 < k
        · rw [if_pos h0k]
          have hm := hmon (k - 1) (by omega)
          rw [Nat.sub_add_cancel h0k] at hm
          exact hm
        · rw [if_neg h0k]
          exact Nat.zero_le _)
      (List.range planIdx) (fun k hk => List.mem_range.mp hk)
      _ stA stB hBB hinvA
    by_cases hrC : pnrb.getD planIdx 0 = 0
    · rw [if_pos hrC] at hCC
      obtain rfl := Option.some.inj hCC
      refine InvC_mono ?_ hinvB
      intro i c hc
      obtain ⟨k, hk1, hk2, hca, hcb, hi1, hi2⟩ := hc
      have hi2b : i < pbl.getD planIdx 0 := by simpa using hi2
      have hklt : k < planIdx := by
        rcases Nat.lt_or_ge k planIdx with h | h
        · exact h
        · exact absurd hk2 (by
            have : k = planIdx := by omega
            rw [this, hrC]
            omega)
      by_cases hii : i < pbl.getD (planIdx - 1) 0
      · exact Or.inl (Or.inl ⟨k, hklt, hk2, hca, hcb, hi1, hii⟩)
      · exact Or.inr ⟨k, List.mem_range.mpr hklt, hk2, hca, hcb,
          by omega, hi2⟩
    · rw [if_neg hrC] at hCC
      simp only [hp1, if_true] at hCC
      have hinvCfin := phaseRun_post G hG (W := W) hmonp (hle planIdx le_rfl)
        (List.range' (pbl.getD (planIdx - 1) 0)
          (pbl.getD planIdx 0 - pbl.getD (planIdx - 1) 0))
        (by
          intro i hi
          have hm := List.mem_range'_1.mp hi
          have := hpos (planIdx - 1) (by omega)
          omega)
        _ stB st' hCC hinvB
      refine InvC_mono ?_ hinvCfin
      intro i c hc
      obtain ⟨k, hk1, hk2, hca, hcb, hi1, hi2⟩ := hc
      have hi2b : i < pbl.getD planIdx 0 := by simpa using hi2
      by_cases hkp : k = planIdx
      · subst hkp
        by_cases hii : i < pbl.getD (k - 1) 0
        · exact Or.inl (Or.inl (Or.inr ⟨hk2, hi1, hii, hca, hcb⟩))
        · exact Or.inr ⟨List.mem_range'_1.mpr ⟨by omega, by omega⟩, hca, hcb⟩
      · have hklt : k < planIdx := by omega
        by_cases hii : i < pbl.getD (planIdx - 1) 0
        · exact Or.inl (Or.inl (Or.inl ⟨k, hklt, hk2, hca, hcb, hi1, hii⟩))
        · exact Or.inl (Or.inr ⟨k, List.mem_range.mpr hklt, hk2, hca, hcb,
            by omega, hi2⟩)

/-- Folding the plan steps `0 .. m-1` over a state that satisfies the
empty coverage yields full coverage `CoveredBy m`. -/
lemma buildFold_post (G : RandGen) (hG : SubsetGen G) {H W B : ℕ}
    (pbl pnrb : List ℕ) (m : ℕ)
    (hpos : ∀ k, k < m → 1 ≤ pbl.getD k 0)
    (hle : ∀ k, k < m → pbl.getD k 0 ≤ B)
    (hmon : ∀ k, k + 1 < m → pbl.getD k 0 ≤ pbl.getD (k + 1) 0) :
    ∀ (st st' : BuildSt G.State),
      (List.range m).foldlM (fun st2 planIdx =>
        planStep G 1 1 1 1 1 H pbl pnrb planIdx st2) st = some st' →
      InvC H W B (CoveredBy pbl pnrb 0) st.attn →
      InvC H W B (CoveredBy pbl pnrb m) st'.attn := by
  induction m with
  | zero =>
      intro st st' hrun hinv
      rw [List.range_zero, List.foldlM_nil] at hrun
      obtain rfl := Option.some.inj hrun
      exact hinv
  | succ m ih =>
      intro st st' hrun hinv
      rw [List.range_succ, List.foldlM_append] at hrun
      obtain ⟨st1, h1, h2⟩ := Option.bind_eq_some.mp hrun
      simp only [List.foldlM_cons, List.foldlM_nil] at h2
      obtain ⟨st2, h3, h4⟩ := Option.bind_eq_some.mp h2
      obtain rfl := Option.some.inj h4
      have hmid := ih (fun k hk => hpos k (by omega))
        (fun k hk => hle k (by omega)) (fun k hk => hmon k (by omega))
        st st1 h1 hinv
      exact planStep_post G hG pbl pnrb m
        (fun k hk => hpos k (by omega)) (fun k hk => hle k (by omega))
        (fun k hk => hmon k (by omega)) h3 hmid

/-- Rows of the sliced per-head output of
`_bigbird_block_rand_mask_with_head` carry no forbidden entry: row `j`
of head `h` is the builder's row for query block `j + 1`, and full
coverage makes every cell of every interior row legal. -/
theorem withHead_not_forbidden (G : RandGen) (hG : SubsetGen G) (rng : G.State)
    (fromSeq bs H : ℕ) (pfl pnrb : List ℕ)
    (out : List (List (List ℕ))) (rng' : G.State)
    (hrun : bigbirdBlockRandMaskWithHead G rng fromSeq bs H pfl pnrb
      1 1 1 1 1 1 = some (out, rng'))
    (hpos : ∀ k, k ≤ pfl.findIdx (· == fromSeq) →
      1 ≤ (pfl.map (· / bs)).getD k 0)
    (hle : ∀ k, k ≤ pfl.findIdx (· == fromSeq) →
      (pfl.map (· / bs)).getD k 0 ≤ fromSeq / bs)
    (hmon : ∀ k, k + 1 ≤ pfl.findIdx (· == fromSeq) →
      (pfl.map (· / bs)).getD k 0 ≤ (pfl.map (· / bs)).getD (k + 1) 0)
    (hlast : (pfl.map (· / bs)).getD (pfl.findIdx (· == fromSeq)) 0 =
      fromSeq / bs) :
    ∀ h, h < H → ∀ j, j < fromSeq / bs - 2 →
      ∀ x ∈ (out.getD h []).getD j [], ¬ Forbidden (fromSeq / bs) (j + 1) x := by
  intro h hh j hj x hx
  simp only [bigbirdBlockRandMaskWithHead] at hrun
  rw [Option.map_eq_some'] at hrun
  obtain ⟨stFin, hfold, hout⟩ := hrun
  have hout1 : out = (List.range H).map (fun h' =>
      (((List.range (fromSeq / bs)).map (stFin.attn h')).drop 1).take
        (fromSeq / bs - 1 - 1)) :=
    (congrArg Prod.fst hout).symm
  have hinit : InvC H (prefSum pnrb (pfl.findIdx (· == fromSeq) + 1))
      (fromSeq / bs) (CoveredBy (pfl.map (· / bs)) pnrb 0)
      (fun _ _ => List.replicate
        (prefSum pnrb (pfl.findIdx (· == fromSeq) + 1)) 0) := by
    constructor
    · intro h' i
      exact List.length_replicate _ _
    · intro h' i c _ hc
      obtain ⟨k, hk, _⟩ := hc
      omega
  have hfin := buildFold_post G hG (pfl.map (· / bs)) pnrb
    (pfl.findIdx (· == fromSeq) + 1)
    (fun k hk => hpos k (by omega))
    (fun k hk => hle k (by omega))
    (fun k hk => hmon k (by omega)) _ stFin hfold hinit
  -- identify the accessed row
  have hnb : 2 ≤ fromSeq / bs := by omega
  have hhlen : h < ((List.range H).map (fun h' =>
      (((List.range (fromSeq / bs)).map (stFin.attn h')).drop 1).take
        (fromSeq / bs - 1 - 1))).length := by
    simpa using hh
  have hstep1 : out.getD h [] =
      (((List.range (fromSeq / bs)).map (stFin.attn h)).drop 1).take
        (fromSeq / bs - 1 - 1) := by
    rw [hout1, List.getD_eq_getElem _ _ hhlen, List.getElem_map,
      List.getElem_range]
  have hjlen : j < ((((List.range (fromSeq / bs)).map
      (stFin.attn h)).drop 1).take (fromSeq / bs - 1 - 1)).length := by
    simp
    omega
  have hrowid : (out.getD h []).getD j [] = stFin.attn h (1 + j) := by
    rw [hstep1, List.getD_eq_getElem _ _ hjlen, List.getElem_take,
      List.getElem_drop, List.getElem_map, List.getElem_range]
  rw [hrowid] at hx
  obtain ⟨c, hcl, hcell⟩ := mem_iff_cell hx
  rw [hfin.1 h (1 + j)] at hcl
  have hcov : CoveredBy (pfl.map (· / bs)) pnrb
      (pfl.findIdx (· == fromSeq) + 1) (1 + j) c := by
    obtain ⟨k, hk1, hk2, hk3, hk4⟩ := prefSum_cover pnrb _ c hcl
    refine ⟨k, hk1, hk2, hk3, hk4, by omega, ?_⟩
    have hnorm : (pfl.findIdx (· == fromSeq) + 1) - 1 =
        pfl.findIdx (· == fromSeq) := by omega
    rw [hnorm, hlast]
    omega
  have := hfin.2 h (1 + j) c hh hcov x hcell
  have hswap : 1 + j = j + 1 := by omega
  rw [hswap] at this
  exact this

/-- C1 (amended): for every configuration with `block_size` dividing
`seq_len`, at least five blocks, and `seq_len` outside the legacy set
`{1024, 3072, 4096}` (so the plan-based sampler path runs), every entry
`x` of the sampled adjacency row of head `h` for interior query block
`j + 1` avoids the forbidden set `{j, j+1, j+2, 0, B-1}`, for every
subset-respecting generator and every seed. -/
theorem claim1_amended (G : RandGen) (hG : SubsetGen G) (rng : G.State)
    (seqLen bs r H : ℕ) (hbs : 0 < bs) (hdvd : bs ∣ seqLen)
    (hB : 5 ≤ seqLen / bs)
    (hnew : ¬ (seqLen = 1024 ∨ seqLen = 3072 ∨ seqLen = 4096)) :
    ∀ out rng', generateRandAttn G rng seqLen bs r H 4096 = some (out, rng') →
      ∀ h, h < H → ∀ j, j < seqLen / bs - 2 →
        ∀ x ∈ (out.getD h []).getD j [],
          ¬ Forbidden (seqLen / bs) (j + 1) x := by
  intro out rng' hp h hh j hj x hx
  unfold generateRandAttn at hp
  rw [if_neg hnew] at hp
  by_cases h1 : 2 * r + 5 < seqLen / bs
  · unfold getRandAttnPlan at hp
    rw [if_pos h1] at hp
    have hlt0 : (2 * r + 5) * bs < (seqLen / bs) * bs :=
      mul_lt_mul_of_pos_right h1 hbs
    rw [Nat.div_mul_cancel hdvd] at hlt0
    have hne : (((2 * r + 5) * bs) == seqLen) = false := by
      simp only [beq_eq_false_iff_ne, ne_eq]
      omega
    have hfind : List.findIdx (fun x => x == seqLen)
        [(2 * r + 5) * bs, seqLen] = 1 := by
      simp [List.findIdx_cons, hne]
    have hd1 : (2 * r + 5) * bs / bs = 2 * r + 5 :=
      Nat.mul_div_cancel _ hbs
    have hmap : List.map (fun x => x / bs) [(2 * r + 5) * bs, seqLen] =
        [2 * r + 5, seqLen / bs] := by
      rw [List.map_cons, List.map_cons, List.map_nil, hd1]
    refine withHead_not_forbidden G hG rng seqLen bs H
      [(2 * r + 5) * bs, seqLen] [r, 0] out rng' hp ?_ ?_ ?_ ?_ h hh j hj x hx
    · rw [hfind, hmap]
      intro k hk
      match k, hk with
      | 0, _ => simp [List.getD]
      | 1, _ => simp [List.getD]; omega
    · rw [hfind, hmap]
      intro k hk
      match k, hk with
      | 0, _ => simp [List.getD]; omega
      | 1, _ => simp [List.getD]
    · rw [hfind, hmap]
      intro k hk
      match k, hk with
      | 0, _ => simp [List.getD]; omega
    · rw [hfind, hmap]
      simp [List.getD]
  · by_cases h2 : r + 5 < seqLen / bs
    · unfold getRandAttnPlan at hp
      rw [if_neg h1, if_pos h2] at hp
      have hlt0 : (r + 5) * bs < (seqLen / bs) * bs :=
        mul_lt_mul_of_pos_right h2 hbs
      rw [Nat.div_mul_cancel hdvd] at hlt0
      have hne : (((r + 5) * bs) == seqLen) = false := by
        simp only [beq_eq_false_iff_ne, ne_eq]
        omega
      have hfind : List.findIdx (fun x => x == seqLen)
          [(r + 5) * bs, seqLen] = 1 := by
        simp [List.findIdx_cons, hne]
      have hd1 : (r + 5) * bs / bs = r + 5 :=
        Nat.mul_div_cancel _ hbs
      have hmap : List.map (fun x => x / bs) [(r + 5) * bs, seqLen] =
          [r + 5, seqLen / bs] := by
        rw [List.map_cons, List.map_cons, List.map_nil, hd1]
      refine withHead_not_forbidden G hG rng seqLen bs H
        [(r + 5) * bs, seqLen] [r / 2, r - r / 2] out rng' hp
        ?_ ?_ ?_ ?_ h hh j hj x hx
      · rw [hfind, hmap]
        intro k hk
        match k, hk with
        | 0, _ => simp [List.getD]
        | 1, _ => simp [List.getD]; omega
      · rw [hfind, hmap]
        intro k hk
        match k, hk with
        | 0, _ => simp [List.getD]; omega
        | 1, _ => simp [List.getD]
      · rw [hfind, hmap]
        intro k hk
        match k, hk with
        | 0, _ => simp [List.getD]; omega
      · rw [hfind, hmap]
        simp [List.getD]
    · unfold getRandAttnPlan at hp
      rw [if_neg h1, if_neg h2] at hp
      have hfind : List.findIdx (fun x => x == seqLen) [seqLen] = 0 := by
        simp [List.findIdx_cons]
      have hmap : List.map (fun x => x / bs) [seqLen] = [seqLen / bs] := by
        rw [List.map_cons, List.map_nil]
      refine withHead_not_forbidden G hG rng seqLen bs H
        [seqLen] [r] out rng' hp ?_ ?_ ?_ ?_ h hh j hj x hx
      · rw [hfind, hmap]
        intro k hk
        match k, hk with
        | 0, _ => simp [List.getD]; omega
      · rw [hfind, hmap]
        intro k hk
        match k, hk with
        | 0, _ => simp [List.getD]
      · rw [hfind, hmap]
        intro k hk
        exact absurd hk (by omega)
      · rw [hfind, hmap]
        simp [List.getD]

/-- C1 counterexample: with `seq_len = 1024`, `block_size = 128`
(`B = 8` blocks, a valid configuration), the engine routes through the
retained old-paper path (`max_seqlen = 4096`, `last_idx = 1024`); under
the reversing permutation generator the sampled row of head 0 for
interior query block 1 is `[7]`, and `7 = B - 1` lies in the forbidden
set `{0, 1, 2, 0, B-1}` of block 1. -/
theorem claim1_counterexample :
    (generateRandAttn revGen (revGen.seedFn 0) 1024 128 1 1 4096).map
      (fun p => (p.1.getD 0 []).getD 0 []) = some [7] ∧
    Forbidden (1024 / 128) (0 + 1) 7 := by
  constructor
  · decide
  · decide

/-- C1 witness: the amended theorem applied at the identity generator,
`seq_len = 8`, `block_size = 1`, one random block, one head, seed 0:
the sampled row of head 0 for query block 1 is `[3]` and `3` is indeed
outside the forbidden set of block 1. -/
theorem claim1_witness :
    ¬ Forbidden (8 / 1) (0 + 1) 3 :=
  claim1_amended idGen idGen_perm.subsetGen (idGen.seedFn 0) 8 1 1 1
    (by decide) (by decide) (by decide) (by decide)
    [[[3], [4], [1], [1], [2], [1]]] 7 (by decide)
    0 (by decide) 0 (by decide) 3 (by decide)

end BigBird
